import Mathlib

/-!
Verification of the parallel lowering pass (`src/compiler/passes/parallel.cpp`).

Each namespace below is a shallow embedding of one sub-pass of the source
file, with the source function names kept.  The theorems at the end of the
file settle the frozen claims about the pass.
-/

set_option linter.unusedVariables false

namespace TaskBundle

/-- Kind of the value type (`arg->getValType()`) of an actual passed to a task
function, as distinguished by `insertAutoCopyDestroyForTaskArg`:
internally reference-counted types, user record types (which may or may not
have an autoCopy function — `_RuntimeTypeInfo` records do not), and
everything else. -/
inductive BaseKind where
  | refcounted : BaseKind
  | record (hasAutoCopy : Bool) : BaseKind
  | other : BaseKind
deriving DecidableEq, Repr

/-- The flags of a task function that `insertAutoCopyDestroyForTaskArg` and
`create_block_fn_wrapper` consult. -/
structure TaskFnFlags where
  isBegin : Bool
  isOn : Bool
  isNonBlocking : Bool
  isCobeginOrCoforall : Bool
deriving DecidableEq, Repr

/-- One actual argument of a call to a task function, as seen by
`insertAutoCopyDestroyForTaskArg`: whether `arg->typeInfo() != baseType`
(i.e. the actual is a reference to the value type), and the kind of the
value type. -/
structure TaskActual where
  byRef : Bool
  base : BaseKind
deriving DecidableEq, Repr

/-- `fn->hasFlag(FLAG_BEGIN) || (fn->hasFlag(FLAG_ON) && fn->hasFlag(FLAG_NON_BLOCKING))`:
the guard under which `insertAutoCopyDestroyForTaskArg` does any work. -/
def isAsyncTaskFn (fn : TaskFnFlags) : Bool :=
  fn.isBegin || (fn.isOn && fn.isNonBlocking)

/-- Number of autoDestroy calls that `insertAutoCopyDestroyForTaskArg`
inserts into the task function's body (before the `_downEndCount` call) for
one actual of one invocation.  Transcribed from the source: for a
reference-counted value type a destroy is inserted whenever `firstCall`
holds (through a deref temp when the actual is a reference); for a record
value type a destroy is inserted only when the record is passed by value,
it has an autoCopy function, and `firstCall` holds; otherwise nothing. -/
def insertAutoCopyDestroyForTaskArg (fn : TaskFnFlags) (arg : TaskActual)
    (firstCall : Bool) : Nat :=
  if isAsyncTaskFn fn then
    match arg.base with
    | .refcounted => if firstCall then 1 else 0
    | .record hasAutoCopy =>
        if !arg.byRef then
          if hasAutoCopy then (if firstCall then 1 else 0) else 0
        else 0
    | .other => 0
  else 0

/-- Autodestroy calls inserted into the task function body while `bundleArgs`
processes one call site (it runs `insertAutoCopyDestroyForTaskArg` on every
actual of the call, threading the per-task `firstCall` flag). -/
def bundleArgsDestroys (fn : TaskFnFlags) (actuals : List TaskActual)
    (firstCall : Bool) : Nat :=
  (actuals.map (fun arg => insertAutoCopyDestroyForTaskArg fn arg firstCall)).sum

/-- Autodestroy calls inserted into the task function body by the
`passArgsToNestedFns` loop over all call sites of one task function: the
`BundleArgsFnData.firstCall` flag starts `true` and is reset to `false`
after the first call site is processed (`baData.firstCall = false` at the
end of `bundleArgs`). -/
def passArgsToNestedFnsDestroys (fn : TaskFnFlags)
    (callSites : List (List TaskActual)) : Nat :=
  (callSites.foldl
    (fun (acc : Nat × Bool) actuals =>
      (acc.1 + bundleArgsDestroys fn actuals acc.2, false))
    (0, true)).1

/-- The count the claim asserts (from the spec's words, for comparison):
the number of formals whose value type is reference-counted or a user
record. -/
def specHookCount (formals : List TaskActual) : Nat :=
  formals.countP (fun a =>
    match a.base with
    | .refcounted => true
    | .record _ => true
    | .other => false)

/-- The count the code actually produces on the first call site of an
asynchronous task function: reference-counted formals always get a hook;
record formals only when passed by value and an autoCopy function exists. -/
def codeHookCount (formals : List TaskActual) : Nat :=
  formals.countP (fun a =>
    match a.base with
    | .refcounted => true
    | .record hasAutoCopy => !a.byRef && hasAutoCopy
    | .other => false)

/-- A field of the synthesized `_class_locals<fn>` bundle class. -/
structure BundleField where
  fieldName : String
  ftype : Nat
deriving DecidableEq, Repr

/-- A symbol (the `var` of a `SymExpr` actual, or a formal) with its name
and declared type. -/
structure BSym where
  name : String
  type : Nat
deriving DecidableEq, Repr

/-- The field-building loop of `create_arg_bundle_class`, carrying the
numbering counter `i`: for each actual of the first call, a field named
`_<i>_<name>` of the actual symbol's type (`var->type`) is appended. -/
def create_arg_bundle_class_fields (i : Nat) : List BSym → List BundleField
  | [] => []
  | v :: rest =>
      { fieldName := "_" ++ toString i ++ "_" ++ v.name, ftype := v.type }
        :: create_arg_bundle_class_fields (i + 1) rest

/-- `create_arg_bundle_class fn fcall`: the fields of the synthesized bundle
class, built from the actuals of the (first) call site `fcall`. -/
def create_arg_bundle_class (actuals : List BSym) : List BundleField :=
  create_arg_bundle_class_fields 0 actuals

end TaskBundle

namespace HeapVars

/-- The shape of a symbol's type, as distinguished by the branch of
`findHeapVarsAndRefs` that decides between broadcasting, record-wrapped
replication and heap promotion of a module-level variable (the predicates
`is_bool_type` .. `is_complex_type`, `isRecord`, `isRecordWrappedType`,
`isSyncType`). -/
inductive VTy where
  | boolTy | enumTy | intTy | uintTy | realTy | imagTy | complexTy
  | recordTy (recordWrapped : Bool) (sync : Bool)
  | classTy
  | otherTy
deriving DecidableEq, Repr

/-- `is_bool_type || is_enum_type || ... || is_complex_type ||
(isRecord && !isRecordWrappedType && !isSyncType)`: the types whose
module-level consts are replicated by a private broadcast. -/
def isBroadcastableConstType (t : VTy) : Bool :=
  match t with
  | .boolTy | .enumTy | .intTy | .uintTy | .realTy | .imagTy | .complexTy => true
  | .recordTy recordWrapped sync => !recordWrapped && !sync
  | .classTy | .otherTy => false

/-- `isRecordWrappedType`. -/
def isRecordWrappedVTy (t : VTy) : Bool :=
  match t with
  | .recordTy recordWrapped _ => recordWrapped
  | _ => false

/-- One `DefExpr` of `gDefExprs`, restricted to the data that
`findHeapVarsAndRefs` reads from it. -/
structure GDef where
  isCoforallIndexVar : Bool
  typeIsRef : Bool
  typeIsPrimitive : Bool
  parentFnRetVar : Bool
  parentIsModule : Bool
  parentIsRootModule : Bool
  isVarSymbol : Bool
  isPrivate : Bool
  isExtern : Bool
  isConst : Bool
  ty : VTy
  defCount : Nat
deriving DecidableEq, Repr

/-- What `findHeapVarsAndRefs` does with one `DefExpr`. -/
inductive HeapAction where
  | addRef
  | addVar
  | broadcast
  | replicateRecordWrapped
  | fatal
  | nothing
deriving DecidableEq, Repr

/-- The per-`DefExpr` body of the `findHeapVarsAndRefs` loop, transcribed
from the source.  A coforall index variable of reference type seeds the ref
set; a non-primitive (or returned-by-ref) one seeds the var set.  Otherwise
a module-level (non-root) variable symbol that is neither private nor
extern is: broadcast when it is a const of broadcastable type (the source
asserts it has exactly one definition), replicated when record-wrapped,
and added to the var set (heap promotion) in every other case. -/
def findHeapVarsAndRefsClassify (fLocal : Bool) (d : GDef) : HeapAction :=
  if d.isCoforallIndexVar then
    if d.typeIsRef then .addRef
    else if !d.typeIsPrimitive || d.parentFnRetVar then .addVar
    else .nothing
  else if !fLocal && d.parentIsModule && !d.parentIsRootModule &&
          d.isVarSymbol && !d.isPrivate && !d.isExtern then
    if d.isConst && isBroadcastableConstType d.ty then
      if d.defCount = 1 then .broadcast else .fatal
    else if isRecordWrappedVTy d.ty then .replicateRecordWrapped
    else .addVar
  else .nothing

/-- The var set accumulated by `findHeapVarsAndRefs` over all defs: exactly
the defs classified `addVar`. -/
def findHeapVarsAndRefsVarVec (fLocal : Bool) (defs : List GDef) : List GDef :=
  defs.filter (fun d => findHeapVarsAndRefsClassify fLocal d = .addVar)

/-- The defs behind which `findHeapVarsAndRefs` inserts a
`PRIM_PRIVATE_BROADCAST` call. -/
def findHeapVarsAndRefsBroadcasts (fLocal : Bool) (defs : List GDef) : List GDef :=
  defs.filter (fun d => findHeapVarsAndRefsClassify fLocal d = .broadcast)

end HeapVars

namespace Widen

/-- The kind of symbol a `DefExpr` of `gDefExprs` defines, with the data the
widening functions read: a function (its extern / local-args flags and
return type), a variable (its type), or a formal argument (whether the
parent function is extern, and its type).  Types are identifiers looked up
in `wideClassMap` / `wideRefMap`. -/
inductive DefKind where
  | fnDef (isExtern : Bool) (isLocalArgs : Bool) (retType : Nat)
  | varDef (ty : Nat)
  | argDef (parentFnIsExtern : Bool) (ty : Nat)
deriving DecidableEq, Repr

/-- A symbol definition as inspected by `widenClasses` / `widenRefs`. -/
structure SymDef where
  kind : DefKind
  isImmediate : Bool
  parentIsWideClassType : Bool
  parentIsWideRefType : Bool
  isSuperClassField : Bool
deriving DecidableEq, Repr

/-- Look a type up in a widening map, returning it unchanged when absent
(`if (Type* wide = map.get(t)) ...`). -/
def widenLookup (m : List (Nat × Nat)) (t : Nat) : Nat :=
  match m.lookup t with
  | some w => w
  | none => t

/-- The per-`DefExpr` body of `widenClasses`, transcribed from the source:
immediates are skipped; fields inside a `FLAG_WIDE_CLASS` type are skipped;
`FLAG_SUPER_CLASS` fields are skipped; a function's return type is widened
unless the function is extern or local-args; a variable's type is always
widened; a formal's type is widened unless the parent function is extern. -/
def widenClassesDef (wideClassMap : List (Nat × Nat)) (d : SymDef) : SymDef :=
  if (match d.kind with | .varDef _ => d.isImmediate | _ => false) then d
  else if d.parentIsWideClassType then d
  else if d.isSuperClassField then d
  else
    match d.kind with
    | .fnDef isExtern isLocalArgs retType =>
        if !(isExtern || isLocalArgs) then
          { d with kind := .fnDef isExtern isLocalArgs (widenLookup wideClassMap retType) }
        else d
    | .varDef ty => { d with kind := .varDef (widenLookup wideClassMap ty) }
    | .argDef parentFnIsExtern ty =>
        if !parentFnIsExtern then
          { d with kind := .argDef parentFnIsExtern (widenLookup wideClassMap ty) }
        else d

/-- The per-`DefExpr` body of `widenRefs`, transcribed from the source:
fields inside a `FLAG_WIDE` type are skipped; `FLAG_SUPER_CLASS` fields are
skipped; every function's return type is widened through `wideRefMap`
(no extern / local-args test), and every variable's and every formal's type
is widened (no extern test on the parent function). -/
def widenRefsDef (wideRefMap : List (Nat × Nat)) (d : SymDef) : SymDef :=
  if d.parentIsWideRefType then d
  else if d.isSuperClassField then d
  else
    match d.kind with
    | .fnDef isExtern isLocalArgs retType =>
        { d with kind := .fnDef isExtern isLocalArgs (widenLookup wideRefMap retType) }
    | .varDef ty => { d with kind := .varDef (widenLookup wideRefMap ty) }
    | .argDef parentFnIsExtern ty =>
        { d with kind := .argDef parentFnIsExtern (widenLookup wideRefMap ty) }

/-- The type stored in a symbol definition. -/
def defType (d : SymDef) : Nat :=
  match d.kind with
  | .fnDef _ _ retType => retType
  | .varDef ty => ty
  | .argDef _ ty => ty

end Widen

namespace GlobalsInit

/-- A statement of the emitted `chpl__heapAllocateGlobals` function body.
`condNodeZero allocs` is the `CondStmt` guarded by `chpl_nodeID == 0` whose
block holds one `chpl_here_alloc` call per promoted global; `registerGlobal`
is a `PRIM_HEAP_REGISTER_GLOBAL_VAR` call; `broadcastGlobals` is the
`PRIM_HEAP_BROADCAST_GLOBAL_VARS` call. -/
inductive GStmt where
  | defTmp (n : Nat)
  | moveNodeId
  | moveEqZero
  | condNodeZero (allocs : List Nat)
  | registerGlobal (idx : Nat) (sym : Nat)
  | broadcastGlobals (n : Nat)
  | returnVoid
deriving DecidableEq, Repr

/-- `heapAllocateGlobalsHead`: the stub body.  When wide references are not
required the function receives only a `return void` statement (the tail is
never run in that case). -/
def heapAllocateGlobalsHead (requireWideReferences : Bool) : List GStmt :=
  if !requireWideReferences then [.returnVoid] else []

/-- The register-call loop of `heapAllocateGlobalsTail`, carrying the
counter `i`. -/
def registerLoop (i : Nat) : List Nat → List GStmt
  | [] => []
  | sym :: rest => .registerGlobal i sym :: registerLoop (i + 1) rest

/-- `heapAllocateGlobalsTail`: two temps and their moves computing
`chpl_nodeID == 0`, a conditional on that flag containing a heap allocation
for each promoted global, a registration call per global with the running
index, the broadcast call with the final count, and a `return void`. -/
def heapAllocateGlobalsTail (heapVars : List Nat) : List GStmt :=
  [.defTmp 0, .defTmp 1, .moveNodeId, .moveEqZero, .condNodeZero heapVars]
    ++ registerLoop 0 heapVars
    ++ [.broadcastGlobals heapVars.length, .returnVoid]

/-- The body of `chpl__heapAllocateGlobals` as assembled by
`insertWideReferences`: the head stub, then — only when
`requireWideReferences()` holds — the tail. -/
def chplHeapAllocateGlobalsBody (requireWideReferences : Bool)
    (heapVars : List Nat) : List GStmt :=
  heapAllocateGlobalsHead requireWideReferences
    ++ (if requireWideReferences then heapAllocateGlobalsTail heapVars else [])

/-- Projection: the symbols allocated inside a node-0 conditional. -/
def condAllocs : GStmt → Option (List Nat)
  | .condNodeZero a => some a
  | _ => none

/-- Projection: an index/symbol registration pair. -/
def regPair : GStmt → Option (Nat × Nat)
  | .registerGlobal i s => some (i, s)
  | _ => none

/-- Projection: the argument of a broadcast call. -/
def broadcastArg : GStmt → Option Nat
  | .broadcastGlobals n => some n
  | _ => none

end GlobalsInit

namespace WideString

/-- A `TypeSymbol` of `gTypeSymbols` with the flags `buildWideClasses`
reads. -/
structure TS where
  ty : Nat
  isClass : Bool
  isRef : Bool
  noWideClass : Bool
deriving DecidableEq, Repr

/-- The pieces of global state `buildWideClass` touches: the
`wideStringType` global, the `wideClassMap`, and a counter supplying fresh
type identifiers for the synthesized wide classes. -/
structure WSState where
  wideStringType : Option Nat
  wideClassMap : List (Nat × Nat)
  nextId : Nat
deriving DecidableEq, Repr

/-- `buildWideClass type`: synthesize the wide class for `type`; when
`type == dtString` the wide class additionally records the string length,
and the `wideStringType` global is set — aborting with
`INT_FATAL("Created two wide string types")` (modelled as `none`) if it was
already set.  Finally the wide class is entered into `wideClassMap`. -/
def buildWideClass (dtString : Nat) (st : WSState) (t : Nat) : Option WSState :=
  let wide := st.nextId
  let st1 : WSState := { st with nextId := wide + 1 }
  let st2 : Option WSState :=
    if t = dtString then
      match st1.wideStringType with
      | some _ => none
      | none => some { st1 with wideStringType := some wide }
    else some st1
  st2.map (fun s => { s with wideClassMap := (t, wide) :: s.wideClassMap })

/-- `buildWideClasses`: build a wide class for every class type symbol that
is not a ref type and does not opt out via `FLAG_NO_WIDE_CLASS`, then build
the wide string class with one dedicated call. -/
def buildWideClasses (dtString : Nat) (tss : List TS) (st : WSState) :
    Option WSState :=
  match (tss.filter (fun ts => ts.isClass && !ts.isRef && !ts.noWideClass)).foldlM
          (fun s ts => buildWideClass dtString s ts.ty) st with
  | none => none
  | some s => buildWideClass dtString s dtString

/-- `isWideString t`: false without wide references; otherwise asserts the
wide string type exists (`none` models the assertion failing) and compares
`t` against it. -/
def isWideString (requireWideReferences : Bool) (wideStringType : Option Nat)
    (t : Nat) : Option Bool :=
  if !requireWideReferences then some false
  else
    match wideStringType with
    | none => none
    | some w => some (t = w)

end WideString

namespace EndCounts

/-- The primitive (if any) a call expression carries, with the type the
source reads off it (`call->typeInfo()` for `PRIM_GET_END_COUNT`,
`call->get(1)->typeInfo()` for `PRIM_SET_END_COUNT`). -/
inductive ECPrim where
  | getEndCount (ty : Nat)
  | setEndCount (ty : Nat)
  | nonePrim
deriving DecidableEq, Repr

/-- A call expression of `gCallExprs`: its identity, the function containing
it (`call->getFunction()`), its resolved callee if any (for the `calledBy`
relation), and its primitive. -/
structure ECall where
  id : Nat
  inFn : Nat
  callee : Option Nat
  prim : ECPrim
deriving DecidableEq, Repr

/-- How a `get_end_count` / `set_end_count` primitive was rewritten. -/
inductive ECRewrite where
  | bySymRef (sym : Nat)
  | byMoveInto (sym : Nat)
deriving DecidableEq, Repr

/-- The state threaded through `insertEndCounts`: the `fn -> endCountSymbol`
map (each entry keeps the symbol id and its type), the work queue, the
functions already dequeued, the bookkeeping of what `insertEndCount`
创建: a formal appended to a non-main function, a temp at the head of
`chpl_gen_main`; the primitive rewrites; the actuals appended to call
sites; and a fresh-symbol counter. -/
structure ECState where
  endCountMap : List (Nat × (Nat × Nat))
  queue : List Nat
  processedFns : List Nat
  addedFormals : List (Nat × Nat)
  mainHeadVars : List (Nat × Nat)
  rewrites : List (Nat × ECRewrite)
  appended : List (Nat × Nat)
  nextSym : Nat
deriving DecidableEq, Repr

/-- `endCountMap.get(fn)`. -/
def lookupEC (st : ECState) (fn : Nat) : Option (Nat × Nat) :=
  st.endCountMap.lookup fn

/-- `insertEndCount fn endCountType queue endCountMap`: for
`chpl_gen_main`, define a fresh `_endCount` temp at the head of the
function; for any other function, append a fresh `_endCount` formal and
define a local temp moved from it.  Either way the local temp becomes the
function's end-count symbol and the function joins the queue. -/
def insertEndCount (mainFn fn ty : Nat) (st : ECState) : ECState :=
  if fn = mainFn then
    let v := st.nextSym
    { st with
      endCountMap := (fn, (v, ty)) :: st.endCountMap
      queue := st.queue ++ [fn]
      mainHeadVars := (fn, ty) :: st.mainHeadVars
      nextSym := v + 1 }
  else
    let arg := st.nextSym
    let v := st.nextSym + 1
    { st with
      endCountMap := (fn, (v, ty)) :: st.endCountMap
      queue := st.queue ++ [fn]
      addedFormals := (fn, ty) :: st.addedFormals
      nextSym := arg + 2 }

/-- `if (!endCountMap.get(pfn)) insertEndCount(pfn, ...)`. -/
def ensureEndCount (mainFn fn ty : Nat) (st : ECState) : ECState :=
  match lookupEC st fn with
  | some _ => st
  | none => insertEndCount mainFn fn ty st

/-- The first sweep of `insertEndCounts` over one call: a
`PRIM_GET_END_COUNT` is replaced by a reference to the containing
function's end-count symbol; a `PRIM_SET_END_COUNT` by a move into it;
the containing function acquires an end count first if it lacks one. -/
def sweepCall (mainFn : Nat) (st : ECState) (c : ECall) : ECState :=
  match c.prim with
  | .getEndCount ty =>
      let st1 := ensureEndCount mainFn c.inFn ty st
      match lookupEC st1 c.inFn with
      | some (s, _) => { st1 with rewrites := (c.id, .bySymRef s) :: st1.rewrites }
      | none => st1
  | .setEndCount ty =>
      let st1 := ensureEndCount mainFn c.inFn ty st
      match lookupEC st1 c.inFn with
      | some (s, _) => { st1 with rewrites := (c.id, .byMoveInto s) :: st1.rewrites }
      | none => st1
  | .nonePrim => st

/-- One call site of a queued function during backward propagation: make
sure the caller has an end count of the callee's end-count type, then
append the caller's end-count symbol as an extra last actual
(`call->insertAtTail(endCountMap.get(pfn))`). -/
def propagateCallSite (mainFn ty : Nat) (st : ECState) (c : ECall) : ECState :=
  let st1 := ensureEndCount mainFn c.inFn ty st
  match lookupEC st1 c.inFn with
  | some (s, _) => { st1 with appended := (c.id, s) :: st1.appended }
  | none => st1

/-- The backward-propagation worklist of `insertEndCounts`: dequeue a
function, visit every one of its call sites, repeat until the queue (which
grows as callers acquire end counts) is empty.  `none` models running out
of fuel; the worklist itself terminates because a function enters the
queue at most once. -/
def insertEndCountsLoop (mainFn : Nat) (calls : List ECall) :
    Nat → ECState → Option ECState
  | 0, st => match st.queue with | [] => some st | _ :: _ => none
  | fuel + 1, st =>
    match st.queue with
    | [] => some st
    | fn :: rest =>
      match lookupEC st fn with
      | none => none
      | some (_, ty) =>
        let st1 := { st with queue := rest }
        let st2 := (calls.filter (fun c => c.callee = some fn)).foldl
                     (propagateCallSite mainFn ty) st1
        insertEndCountsLoop mainFn calls fuel
          { st2 with processedFns := fn :: st2.processedFns }

/-- The initial state. -/
def ecInit : ECState :=
  { endCountMap := [], queue := [], processedFns := [], addedFormals := []
    mainHeadVars := [], rewrites := [], appended := [], nextSym := 0 }

/-- `insertEndCounts`: sweep all calls rewriting the end-count primitives,
then propagate end counts backwards through the call graph. -/
def insertEndCounts (mainFn : Nat) (calls : List ECall) (fuel : Nat) :
    Option ECState :=
  insertEndCountsLoop mainFn calls fuel (calls.foldl (sweepCall mainFn) ecInit)

/-- The end-count type named by a primitive, if any. -/
def primTy : ECPrim → Option Nat
  | .getEndCount ty => some ty
  | .setEndCount ty => some ty
  | .nonePrim => none

/-- Map invariant: every end-count map entry carries the program's unique
end-count type `τ`, and was acquired the way `insertEndCount` acquires one
(a fresh temp at the head of `chpl_gen_main`, a new trailing formal plus a
local copy anywhere else). -/
def ecMapOK (mainFn τ : Nat) (st : ECState) : Prop :=
  ∀ fn s ty, lookupEC st fn = some (s, ty) →
    ty = τ ∧ (fn = mainFn → (fn, ty) ∈ st.mainHeadVars) ∧
      (¬fn = mainFn → (fn, ty) ∈ st.addedFormals)

/-- Queue invariant: every queued function has an end count. -/
def ecQueueOK (st : ECState) : Prop :=
  ∀ fn ∈ st.queue, ¬lookupEC st fn = none

/-- Domain invariant: every function with an end count is processed, still
queued, or is the function currently being processed (`x`). -/
def ecDomOKx (st : ECState) (x : Option Nat) : Prop :=
  ∀ fn, ¬lookupEC st fn = none →
    fn ∈ st.processedFns ∨ fn ∈ st.queue ∨ some fn = x

/-- What the first sweep guarantees for one call: its end-count primitive
(if any) has been rewritten against the containing function's end-count
symbol — a symbol reference for `get_end_count`, a move into the symbol
for `set_end_count`. -/
def ecRewriteFact (st : ECState) (c : ECall) : Prop :=
  (∀ ty, c.prim = ECPrim.getEndCount ty →
    ∃ s ty2, lookupEC st c.inFn = some (s, ty2) ∧
      (c.id, ECRewrite.bySymRef s) ∈ st.rewrites) ∧
  (∀ ty, c.prim = ECPrim.setEndCount ty →
    ∃ s ty2, lookupEC st c.inFn = some (s, ty2) ∧
      (c.id, ECRewrite.byMoveInto s) ∈ st.rewrites)

/-- What propagation guarantees for one call site: the caller has an end
count and that symbol was appended to the call as an extra actual. -/
def ecAppendFact (st : ECState) (c : ECall) : Prop :=
  ∃ s ty2, lookupEC st c.inFn = some (s, ty2) ∧ (c.id, s) ∈ st.appended

/-- Every call site of every processed function has been extended. -/
def ecAppendOK (calls : List ECall) (st : ECState) : Prop :=
  ∀ fn ∈ st.processedFns, ∀ c ∈ calls, c.callee = some fn → ecAppendFact st c

/-- State growth: map entries, rewrites and appended actuals persist. -/
def ecMono (st st2 : ECState) : Prop :=
  (∀ g x, lookupEC st g = some x → lookupEC st2 g = some x) ∧
  (∀ r ∈ st.rewrites, r ∈ st2.rewrites) ∧
  (∀ a ∈ st.appended, a ∈ st2.appended)

/-- A three-call example program: a `get_end_count` inside function 7,
function 3 calling function 7, and `chpl_gen_main` (function 9) calling
function 3. -/
def ecExampleCalls : List ECall :=
  [⟨0, 7, none, ECPrim.getEndCount 42⟩,
   ⟨1, 3, some 7, ECPrim.nonePrim⟩,
   ⟨2, 9, some 3, ECPrim.nonePrim⟩]

end EndCounts

namespace LocalBlocks

/-- How the `FLAG_WIDE` / `FLAG_WIDE_CLASS` flags sit on a function's
declared return type. -/
inductive RetTy where
  | narrow
  | wideRef
  | wideClass
deriving DecidableEq, Repr

/-- A function as seen by `handleLocalBlocks`: its name, the `FLAG_EXTERN`
and `FLAG_LOCAL_FN` flags, its return type, and its body reduced to the
list of resolved callee ids of the calls it contains.  `origOf` records,
for a clone created by the pass, which function it was copied from (`none`
for every function of the input program). -/
structure LFn where
  name : String
  isExtern : Bool
  localFn : Bool
  retTy : RetTy
  body : List Nat
  origOf : Option Nat
deriving DecidableEq, Repr

/-- The state of the BFS: the function table (clones are appended at the
end), the `cache` of localized functions, and the record of every block
already localized (its list of call targets after redirection). -/
structure LState where
  fns : List LFn
  cache : List (Nat × Nat)
  doneBlocks : List (List Nat)
deriving DecidableEq, Repr

/-- A placeholder function (out-of-range lookups never occur on the inputs
the theorems consider). -/
def dfltLFn : LFn :=
  { name := "", isExtern := false, localFn := false, retTy := .narrow
    body := [], origOf := none }

/-- The function stored at index `i`. -/
def fnAt (st : LState) (i : Nat) : LFn := st.fns.getD i dfltLFn

/-- Replace the body of the function at index `i`. -/
def setBody (fns : List LFn) (i : Nat) (b : List Nat) : List LFn :=
  match fns.get? i with
  | some f => fns.set i { f with body := b }
  | none => fns

/-- Handling of one resolved call inside a localized block, transcribed
from `handleLocalBlocks`: if the callee already has a local form in the
cache, redirect the call to it; otherwise, unless the callee is extern,
clone it, mark the clone `FLAG_LOCAL_FN`, rename it `_local_<orig>`, cache
the clone under both the original and itself (to handle recursion), narrow
the clone's return type when it has the `FLAG_WIDE` flag (an
`insertLocalTemp` on its return expression), redirect the call, and hand
the clone's body back for enqueueing.  Returns the new state, the call's
new target, and the blocks to append to the queue. -/
def processCall (st : LState) (callee : Nat) :
    LState × Nat × List (Nat × List Nat) :=
  match st.cache.lookup callee with
  | some alreadyLocal => (st, alreadyLocal, [])
  | none =>
    match st.fns.get? callee with
    | none => (st, callee, [])
    | some fn =>
      if fn.isExtern then (st, callee, [])
      else
        let newId := st.fns.length
        let cloneRet := if fn.retTy = RetTy.wideRef then RetTy.narrow else fn.retTy
        let clone : LFn :=
          { name := "_local_" ++ fn.name, isExtern := false, localFn := true
            retTy := cloneRet, body := fn.body, origOf := some callee }
        ({ st with fns := st.fns ++ [clone]
                   cache := (callee, newId) :: (newId, newId) :: st.cache },
         newId, [(newId, fn.body)])

/-- Localize every call of one block in order, threading the state. -/
def processBlock (st : LState) :
    List Nat → LState × List Nat × List (Nat × List Nat)
  | [] => (st, [], [])
  | c :: cs =>
    let r1 := processCall st c
    let r2 := processBlock r1.1 cs
    (r2.1, r1.2.1 :: r2.2.1, r1.2.2 ++ r2.2.2)

/-- The BFS queue loop of `handleLocalBlocks`.  A queue item is an optional
owner (the clone whose body the block is; `none` for the program's explicit
local blocks) together with the block's call list.  Clone bodies produced
by `processCall` are appended to the queue, mirroring `queue.add` during
the `forv_Vec` iteration.  `none` models fuel exhaustion; the loop itself
terminates because every function is cloned at most once. -/
def handleLocalBlocksLoop :
    Nat → LState → List (Option Nat × List Nat) → Option LState
  | _, st, [] => some st
  | 0, _, _ :: _ => none
  | fuel + 1, st, (owner, calls) :: rest =>
    let r := processBlock st calls
    let st2 : LState :=
      { r.1 with
        doneBlocks := r.1.doneBlocks ++ [r.2.1]
        fns := match owner with
               | some i => setBody r.1.fns i r.2.1
               | none => r.1.fns }
    handleLocalBlocksLoop fuel st2
      (rest ++ r.2.2.map (fun it => (some it.1, it.2)))

/-- `handleLocalBlocks`: start from the program's blocks marked
`PRIM_BLOCK_LOCAL` with an empty cache. -/
def handleLocalBlocks (fuel : Nat) (fns : List LFn)
    (localBlocks : List (List Nat)) : Option LState :=
  handleLocalBlocksLoop fuel { fns := fns, cache := [], doneBlocks := [] }
    (localBlocks.map (fun b => ((none : Option Nat), b)))

/-- The return type `handleLocalBlocks` gives a clone of a function whose
declared return type is `r`: only a `FLAG_WIDE` (wide-reference) return is
narrowed. -/
def cloneRetTy (r : RetTy) : RetTy :=
  if r = RetTy.wideRef then RetTy.narrow else r

/-- The shape every cached local form has: it carries `FLAG_LOCAL_FN`, is
not extern, records its original, is named `_local_<orig>`, and its return
type is the original's with a wide-reference return narrowed. -/
def cloneShape (st : LState) (i : Nat) : Prop :=
  (fnAt st i).localFn = true ∧
  (fnAt st i).isExtern = false ∧
  ∃ o, (fnAt st i).origOf = some o ∧ o < st.fns.length ∧
    (fnAt st i).name = "_local_" ++ (fnAt st o).name ∧
    (fnAt st i).retTy = cloneRetTy (fnAt st o).retTy

/-- What the claim asserts of a call target `c` in a localized block: when
the callee is not extern, it is a local clone. -/
def targetsLocalClone (st : LState) (c : Nat) : Prop :=
  c < st.fns.length ∧ ((fnAt st c).isExtern = false → cloneShape st c)

/-- The invariant `handleLocalBlocks` maintains on its state. -/
structure LBInv (st : LState) : Prop where
  cacheKeys : ∀ p ∈ st.cache, p.1 < st.fns.length ∧ p.2 < st.fns.length
  cacheVals : ∀ p ∈ st.cache, cloneShape st p.2
  keysNodup : (st.cache.map Prod.fst).Nodup
  cloneTagged : ∀ i o, i < st.fns.length → (fnAt st i).origOf = some o →
    cloneShape st i ∧ (o, i) ∈ st.cache
  bodiesWf : ∀ i, i < st.fns.length → ∀ c ∈ (fnAt st i).body, c < st.fns.length
  doneOk : ∀ blk ∈ st.doneBlocks, ∀ c ∈ blk, targetsLocalClone st c

/-- Monotone growth along `processCall` / `processBlock`: the function
table only gains entries (existing ones untouched) and the cache only
grows. -/
def lbMonoS (st st2 : LState) : Prop :=
  st.fns.length ≤ st2.fns.length ∧
  (∀ i, i < st.fns.length → fnAt st2 i = fnAt st i) ∧
  (∀ p ∈ st.cache, p ∈ st2.cache)

/-- Queue well-formedness: call ids in range, owners in range. -/
def queueWf (st : LState) (queue : List (Option Nat × List Nat)) : Prop :=
  ∀ item ∈ queue, (∀ c ∈ item.2, c < st.fns.length) ∧
    (∀ i, item.1 = some i → i < st.fns.length)

/-- Every clone is either still pending in the queue or its body has been
fully redirected to local forms. -/
def clonesRedirected (st : LState) (queue : List (Option Nat × List Nat)) :
    Prop :=
  ∀ i o, i < st.fns.length → (fnAt st i).origOf = some o →
    (∃ item ∈ queue, item.1 = some i) ∨
      ∀ c ∈ (fnAt st i).body, targetsLocalClone st c

/-- Queue items produced by `processBlock`: owners in range with clone
bodies whose call ids are in range. -/
def itemsWf (st : LState) (items : List (Nat × List Nat)) : Prop :=
  ∀ it ∈ items, it.1 < st.fns.length ∧ ∀ c ∈ it.2, c < st.fns.length

/-- A two-function example program: `f` (wide-ref return, recursive and
calling the extern `g`) and the extern `g`; one local block calling both. -/
def lbExampleFns : List LFn :=
  [{ name := "f", isExtern := false, localFn := false, retTy := RetTy.wideRef
     body := [0, 1], origOf := none },
   { name := "g", isExtern := true, localFn := false, retTy := RetTy.narrow
     body := [], origOf := none }]

end LocalBlocks

namespace HeapFree

/-- A position in the body of one function, as the list of child indices
from the function body down.  `[]` is the function body block itself;
`parentExpr` drops the last index. -/
abbrev Path := List Nat

/-- What kind of expression a use of a heap-promoted variable sits in,
after the source collapses `PRIM_ADDR_OF` / `PRIM_GET_MEMBER` /
`PRIM_GET_SVEC_MEMBER` / `PRIM_WIDE_GET_LOCALE` / `PRIM_WIDE_GET_NODE`
into their parent call: a `PRIM_MOVE`/`PRIM_ASSIGN` whose left-hand side is
`lhs`, a resolved call to function `fn`, or anything else. -/
inductive UseCtx where
  | moveTo (lhs : Nat)
  | callTo (fn : Nat)
  | otherUse
deriving DecidableEq, Repr

/-- One entry of the use map for a symbol: the path of the enclosing
expression (`se->parentExpr`, never itself a block) and its kind. -/
structure VarUse where
  upath : Path
  ctx : UseCtx
deriving DecidableEq, Repr

/-- The inputs of `freeHeapAllocatedVars` for a single function: the paths
of the `BlockStmt`s properly inside the function body, the def/use maps
(`buildDefUseMaps`), and the functions that may contain task parallelism
(`fnsContainingTaskll` after its caller closure). -/
structure FreeEnv where
  blocks : List Path
  useMap : List (Nat × List VarUse)
  defCounts : List (Nat × Nat)
  taskFns : List Nat
deriving DecidableEq, Repr

/-- `toBlockStmt` succeeds: the function body (`[]`) is a block, and so is
every path recorded in `blocks`. -/
def isBlock (env : FreeEnv) (p : Path) : Bool :=
  p.isEmpty || env.blocks.contains p

/-- `useMap.get(v)`, with a missing entry read as no uses. -/
def usesOf (env : FreeEnv) (v : Nat) : List VarUse :=
  (env.useMap.lookup v).getD []

/-- `defMap.get(v)->n`. -/
def defCount (env : FreeEnv) (v : Nat) : Nat :=
  (env.defCounts.lookup v).getD 0

/-- `Vec::add_exclusive`. -/
def addExclusive (v : List Nat) (x : Nat) : List Nat :=
  if v.contains x then v else v ++ [x]

/-- The caller closure building `fnsContainingTaskll`: starting from the
functions flagged begin / cobegin-or-coforall / non-blocking, walk the
growing vector adding (exclusively) the function containing each call site
of every member. -/
def fnsContainingTaskllGo (callersOf : List (Nat × List Nat)) :
    Nat → List Nat → Nat → List Nat
  | 0, vec, _ => vec
  | fuel + 1, vec, i =>
    match vec.get? i with
    | none => vec
    | some fn =>
      fnsContainingTaskllGo callersOf fuel
        (((callersOf.lookup fn).getD []).foldl addExclusive vec) (i + 1)

/-- `fnsContainingTaskll`: the task-flagged functions together with every
function that transitively calls one. -/
def fnsContainingTaskll (callersOf : List (Nat × List Nat))
    (taskFlagged : List Nat) (fuel : Nat) : List Nat :=
  fnsContainingTaskllGo callersOf fuel taskFlagged 0

/-- One pass over the uses of a tracked symbol: a use as the right-hand
side of a move/assign schedules the left-hand side for tracking; a use as
an actual of a call to a function in `fnsContainingTaskll` means the
variable escapes (`freeVar = false`, modelled `none`); other uses are
ignored. -/
def escapeUses (taskSet : List Nat) : List VarUse → Option (List Nat)
  | [] => some []
  | u :: rest =>
    match u.ctx with
    | .moveTo lhs => (escapeUses taskSet rest).map (fun l => lhs :: l)
    | .callTo f =>
        if taskSet.contains f then none else escapeUses taskSet rest
    | .otherUse => escapeUses taskSet rest

/-- The `varsToTrack` worklist of `freeHeapAllocatedVars` (the source
appends without deduplication, so the model carries fuel; `none` is fuel
exhaustion).  `some true` means the variable may be passed into a task
function and must not be freed; `some false` means it is safe to free. -/
def escapeScan (env : FreeEnv) (taskSet : List Nat) :
    Nat → List Nat → Option Bool
  | 0, _ => none
  | _ + 1, [] => some false
  | fuel + 1, v :: rest =>
    match escapeUses taskSet (usesOf env v) with
    | none => some true
    | some tgts => escapeScan env taskSet fuel (rest ++ tgts)

/-- The body of the `parentExpr` walk, recursing on a step count that the
wrapper seeds with the path length (each `dropLast` shortens the path by
one, so the count never runs out). -/
def upchainGo : Nat → Path → List Path
  | 0, _ => []
  | _ + 1, [] => []
  | n + 1, a :: t => (a :: t).dropLast :: upchainGo n ((a :: t).dropLast)

/-- The chain of proper ancestors of a path, nearest first (the repeated
`parentExpr` walk, ending at the function body `[]`). -/
def upchain (p : Path) : List Path :=
  upchainGo p.length p

/-- One later use folded into the innermost-block walk, transcribed from
the `forv_Vec(SymExpr, se, *useMap.get(var))` loop: if the current
`innermostBlock` is an ancestor of the use, keep it; otherwise find the
innermost block ancestor `C` of the use; if `C` is the current block or an
ancestor of it, switch to `C`; otherwise walk the current block's
ancestors for the first one that is a proper ancestor of `C` (`none` here
models the `INT_FATAL` when no such ancestor exists). -/
def innermostStep (isB : Path → Bool) (N u : Path) : Option Path :=
  if (upchain u).contains N then some N
  else
    match (upchain u).find? isB with
    | none => none
    | some C =>
      if C == N || (upchain N).contains C then some C
      else (upchain N).find? (fun a => (upchain C).contains a)

/-- The full walk over all uses of a variable: the first use seeds
`innermostBlock` with its nearest block ancestor, and every later use is
folded in by `innermostStep`.  `none` for an empty use list models the
`INT_ASSERT(useMap.get(var))`. -/
def innermostBlockWalk (isB : Path → Bool) : List Path → Option Path
  | [] => none
  | u :: rest =>
    match (upchain u).find? isB with
    | none => none
    | some n0 => rest.foldlM (fun n u => innermostStep isB n u) n0

/-- Where the `chpl_here_free` call lands. -/
inductive FreeLoc where
  | beforeReturnLabel
  | atTailOf (b : Path)
deriving DecidableEq, Repr

/-- The placement decision at the end of `freeHeapAllocatedVars`: a walk
result equal to the function body inserts the free before the return
label (`insertBeforeReturnAfterLabel`); any other result must be a block
(`INT_ASSERT(block)`, whose failure is modelled `none`) and receives the
free at its tail (`insertAtTailBeforeGoto`). -/
def placeFree (isB : Path → Bool) (upaths : List Path) : Option FreeLoc :=
  match innermostBlockWalk isB upaths with
  | none => none
  | some n =>
    if n = ([] : Path) then some .beforeReturnLabel
    else if isB n then some (.atTailOf n) else none

/-- The outcome of `freeHeapAllocatedVars` for one heap-promoted variable. -/
inductive FreeResult where
  | noFree
  | abortCompile
  | freed (loc : FreeLoc)
deriving DecidableEq, Repr

/-- The per-variable body of `freeHeapAllocatedVars`: variables with other
than exactly one definition are skipped; an escape of the variable (or of
anything its value flows into by moves) into a task-containing function
suppresses the free; otherwise the free is inserted at the computed
innermost block (an abort of the compiler when the walk does not end on a
block).  The outer `none` is fuel exhaustion of the escape worklist. -/
def freeHeapAllocatedVar (env : FreeEnv) (fuel v : Nat) :
    Option FreeResult :=
  if defCount env v = 1 then
    match escapeScan env env.taskFns fuel [v] with
    | none => none
    | some true => some .noFree
    | some false =>
      match placeFree (isBlock env) ((usesOf env v).map (fun u => u.upath)) with
      | none => some .abortCompile
      | some loc => some (.freed loc)
  else some .noFree

/-- `b` is a proper ancestor of `p`. -/
def properAnc (b p : Path) : Prop :=
  b <+: p ∧ b.length < p.length

/-- `b` is the innermost block containing every use path in `us`. -/
def innermostBlockContaining (isB : Path → Bool) (us : List Path) (b : Path) :
    Prop :=
  isB b = true ∧ (∀ u ∈ us, properAnc b u) ∧
    ∀ b2, isB b2 = true → (∀ u ∈ us, properAnc b2 u) → b2 <+: b

/-- The invariant of the innermost-block walk after processing the set `S`
of use paths: the current node contains every processed use, and every
block containing every processed use is a weak ancestor of it. -/
def walkInv (isB : Path → Bool) (S : Path → Prop) (N : Path) : Prop :=
  (∀ v, S v → properAnc N v) ∧
  (∀ b, isB b = true → (∀ v, S v → properAnc b v) → b <+: N)

/-- A minimal function: variable `1` has one def and one use directly in
the function body, escapes nowhere, and there are no inner blocks. -/
def hfExampleEnv : FreeEnv :=
  ⟨[], [(1, [⟨[0], .otherUse⟩])], [(1, 1)], []⟩

/-- A function whose body holds a conditional (child `0`) with a block in
each arm (`[0,0]` and `[0,1]`); variable `1` has one def and one use in
each arm. -/
def hfCondEnv : FreeEnv :=
  ⟨[[0, 0], [0, 1]],
   [(1, [⟨[0, 0, 0], .otherUse⟩, ⟨[0, 1, 0], .otherUse⟩])],
   [(1, 1)], []⟩

end HeapFree



/-! ## Helper lemmas -/

theorem TaskBundle.destroys_notFirst (fn : TaskBundle.TaskFnFlags)
    (a : TaskBundle.TaskActual) :
    TaskBundle.insertAutoCopyDestroyForTaskArg fn a false = 0 := by
  rcases a with ⟨byRef, base⟩
  cases base with
  | refcounted => simp [TaskBundle.insertAutoCopyDestroyForTaskArg]
  | record hac =>
      cases hac <;> cases byRef <;> simp [TaskBundle.insertAutoCopyDestroyForTaskArg]
  | other => simp [TaskBundle.insertAutoCopyDestroyForTaskArg]

theorem TaskBundle.bundleArgsDestroys_notFirst (fn : TaskBundle.TaskFnFlags)
    (c : List TaskBundle.TaskActual) :
    TaskBundle.bundleArgsDestroys fn c false = 0 := by
  induction c with
  | nil => rfl
  | cons a t ih =>
      simp only [TaskBundle.bundleArgsDestroys, List.map_cons, List.sum_cons] at ih ⊢
      rw [TaskBundle.destroys_notFirst, Nat.zero_add]
      exact ih

theorem TaskBundle.bundleArgsDestroys_first_async (fn : TaskBundle.TaskFnFlags)
    (h : TaskBundle.isAsyncTaskFn fn = true) (c : List TaskBundle.TaskActual) :
    TaskBundle.bundleArgsDestroys fn c true = TaskBundle.codeHookCount c := by
  induction c with
  | nil => rfl
  | cons a t ih =>
      rcases a with ⟨byRef, base⟩
      simp only [TaskBundle.bundleArgsDestroys, List.map_cons, List.sum_cons,
        TaskBundle.codeHookCount, List.countP_cons] at ih ⊢
      rw [ih]
      cases base <;> cases byRef <;>
        simp [TaskBundle.insertAutoCopyDestroyForTaskArg, h] <;> omega

theorem TaskBundle.passDestroys_fromNotFirst (fn : TaskBundle.TaskFnFlags)
    (calls : List (List TaskBundle.TaskActual)) (n : Nat) :
    (calls.foldl
      (fun (acc : Nat × Bool) actuals =>
        (acc.1 + TaskBundle.bundleArgsDestroys fn actuals acc.2, false))
      (n, false)).1 = n := by
  induction calls generalizing n with
  | nil => rfl
  | cons c t ih =>
      simp only [List.foldl_cons, TaskBundle.bundleArgsDestroys_notFirst]
      exact ih n

theorem TaskBundle.destroys_nonAsync (fn : TaskBundle.TaskFnFlags)
    (h : TaskBundle.isAsyncTaskFn fn = false) (a : TaskBundle.TaskActual)
    (b : Bool) :
    TaskBundle.insertAutoCopyDestroyForTaskArg fn a b = 0 := by
  simp [TaskBundle.insertAutoCopyDestroyForTaskArg, h]

theorem TaskBundle.passDestroys_nonAsync (fn : TaskBundle.TaskFnFlags)
    (h : TaskBundle.isAsyncTaskFn fn = false)
    (calls : List (List TaskBundle.TaskActual)) (n : Nat) (b : Bool) :
    (calls.foldl
      (fun (acc : Nat × Bool) actuals =>
        (acc.1 + TaskBundle.bundleArgsDestroys fn actuals acc.2, false))
      (n, b)).1 = n := by
  induction calls generalizing n b with
  | nil => rfl
  | cons c t ih =>
      have hz : TaskBundle.bundleArgsDestroys fn c b = 0 := by
        induction c with
        | nil => rfl
        | cons a u ihc =>
            simp [TaskBundle.bundleArgsDestroys, TaskBundle.destroys_nonAsync fn h] at ihc ⊢
      simp only [List.foldl_cons, hz]
      exact ih n false

theorem TaskBundle.create_arg_bundle_class_fields_types (i : Nat)
    (actuals : List TaskBundle.BSym) :
    (TaskBundle.create_arg_bundle_class_fields i actuals).map (fun f => f.ftype)
      = actuals.map (fun a => a.type) := by
  induction actuals generalizing i with
  | nil => rfl
  | cons a t ih => simp [TaskBundle.create_arg_bundle_class_fields, ih]

theorem GlobalsInit.registerLoop_regPairs (l : List Nat) (i : Nat) :
    (GlobalsInit.registerLoop i l).filterMap GlobalsInit.regPair
      = ((List.range l.length).map (fun k => i + k)).zip l := by
  induction l generalizing i with
  | nil => rfl
  | cons s t ih =>
      simp only [GlobalsInit.registerLoop, List.filterMap_cons, GlobalsInit.regPair,
        ih (i + 1), List.length_cons, List.range_succ_eq_map, List.map_cons,
        List.map_map, List.zip_cons_cons, Nat.add_zero]
      have hm : List.map (fun k => i + 1 + k) (List.range t.length)
          = List.map ((fun k => i + k) ∘ Nat.succ) (List.range t.length) :=
        List.map_congr_left (fun k _ => by
          simp only [Function.comp_apply]
          omega)
      rw [hm]

theorem GlobalsInit.registerLoop_condAllocs (l : List Nat) (i : Nat) :
    (GlobalsInit.registerLoop i l).filterMap GlobalsInit.condAllocs = [] := by
  induction l generalizing i with
  | nil => rfl
  | cons s t ih => simp [GlobalsInit.registerLoop, GlobalsInit.condAllocs, ih]

theorem GlobalsInit.registerLoop_broadcastArg (l : List Nat) (i : Nat) :
    (GlobalsInit.registerLoop i l).filterMap GlobalsInit.broadcastArg = [] := by
  induction l generalizing i with
  | nil => rfl
  | cons s t ih => simp [GlobalsInit.registerLoop, GlobalsInit.broadcastArg, ih]

/-! ## Claims -/

/-- C1 (counterexample): the claim counts every formal whose value type is
reference-counted or a user record, but for a `begin` task function whose
single formal is a user record passed by reference the pass inserts no
auto-destroy hook at all: the record branch of
`insertAutoCopyDestroyForTaskArg` fires only when the record is passed by
value. -/
theorem claim_C1_counterexample :
    TaskBundle.passArgsToNestedFnsDestroys
        ⟨true, false, false, false⟩
        [[⟨true, TaskBundle.BaseKind.record true⟩]] = 0 ∧
    TaskBundle.specHookCount [⟨true, TaskBundle.BaseKind.record true⟩] = 1 := by
  constructor <;> rfl

/-- C1 (amended): for a task function that begins asynchronous execution
(`begin`, or `on` + `non_blocking`) with at least one call site, the
auto-destroy hooks inserted into its body number exactly the count of its
formals whose value type is reference-counted, plus those whose value type
is a user record passed by value with an available autoCopy function —
independently of the number of call sites, since only the first call site
(`firstCall`) inserts them; for any other task function no hook is ever
inserted. -/
theorem claim_C1_amended (fn : TaskBundle.TaskFnFlags)
    (first : List TaskBundle.TaskActual)
    (rest : List (List TaskBundle.TaskActual))
    (h : TaskBundle.isAsyncTaskFn fn = true) :
    TaskBundle.passArgsToNestedFnsDestroys fn (first :: rest)
      = TaskBundle.codeHookCount first ∧
    ∀ (fn2 : TaskBundle.TaskFnFlags) (calls : List (List TaskBundle.TaskActual)),
      TaskBundle.isAsyncTaskFn fn2 = false →
      TaskBundle.passArgsToNestedFnsDestroys fn2 calls = 0 := by
  constructor
  · simp only [TaskBundle.passArgsToNestedFnsDestroys, List.foldl_cons, Nat.zero_add]
    rw [TaskBundle.passDestroys_fromNotFirst]
    exact TaskBundle.bundleArgsDestroys_first_async fn h first
  · intro fn2 calls h2
    simp only [TaskBundle.passArgsToNestedFnsDestroys]
    exact TaskBundle.passDestroys_nonAsync fn2 h2 calls 0 true

/-- C1 (witness). -/
theorem claim_C1_witness :
    TaskBundle.isAsyncTaskFn ⟨true, false, false, false⟩ = true ∧
    (TaskBundle.passArgsToNestedFnsDestroys ⟨true, false, false, false⟩
        ([⟨false, TaskBundle.BaseKind.refcounted⟩] :: [])
      = TaskBundle.codeHookCount [⟨false, TaskBundle.BaseKind.refcounted⟩] ∧
    ∀ (fn2 : TaskBundle.TaskFnFlags) (calls : List (List TaskBundle.TaskActual)),
      TaskBundle.isAsyncTaskFn fn2 = false →
      TaskBundle.passArgsToNestedFnsDestroys fn2 calls = 0) :=
  ⟨by decide, claim_C1_amended _ _ _ (by decide)⟩

/-- C2: on a resolved first call site (whose actuals carry, positionally,
the declared types of the task function's formals), the bundle class
synthesized by `create_arg_bundle_class` has exactly one field per formal,
in formal order, with the formal's declared type.  (The source builds the
fields from the call's actuals, so the typing hypothesis is exactly the
resolved-IR contract that every formal/actual pair is matched by
position.) -/
theorem claim_C2_bundle_class (formals actuals : List TaskBundle.BSym)
    (hty : actuals.map (fun a => a.type) = formals.map (fun f => f.type)) :
    (TaskBundle.create_arg_bundle_class actuals).length = formals.length ∧
    (TaskBundle.create_arg_bundle_class actuals).map (fun f => f.ftype)
      = formals.map (fun f => f.type) := by
  have hmap := TaskBundle.create_arg_bundle_class_fields_types 0 actuals
  constructor
  · have h1 := congrArg List.length (hmap.trans hty)
    simpa [TaskBundle.create_arg_bundle_class] using h1
  · simpa [TaskBundle.create_arg_bundle_class] using hmap.trans hty

/-- C2 (witness). -/
theorem claim_C2_witness :
    ([⟨"x", 3⟩, ⟨"y", 7⟩] : List TaskBundle.BSym).map (fun a => a.type)
        = ([⟨"xf", 3⟩, ⟨"yf", 7⟩] : List TaskBundle.BSym).map (fun f => f.type) ∧
    ((TaskBundle.create_arg_bundle_class [⟨"x", 3⟩, ⟨"y", 7⟩]).length
        = ([⟨"xf", 3⟩, ⟨"yf", 7⟩] : List TaskBundle.BSym).length ∧
      (TaskBundle.create_arg_bundle_class [⟨"x", 3⟩, ⟨"y", 7⟩]).map (fun f => f.ftype)
        = ([⟨"xf", 3⟩, ⟨"yf", 7⟩] : List TaskBundle.BSym).map (fun f => f.type)) :=
  ⟨by decide, claim_C2_bundle_class _ _ (by decide)⟩

/-- C3: a module-level (non-root) const variable symbol that is neither
private nor extern, is not a coforall index variable, has a broadcastable
type (primitive scalar, enum, or non-record-wrapped non-sync record) and a
single definition is, when `fLocal` is off, classified for a private
broadcast inserted right after that definition — and it is never placed in
the heap-promotion var set, so its declared type is left unchanged and it
is not among the heap-allocated globals.  `findHeapVarsAndRefsClassify`
never consults `requireWideReferences()`, so this holds whether or not wide
references are required. -/
theorem claim_C3_const_broadcast (d : HeapVars.GDef)
    (hm : d.parentIsModule = true) (hr : d.parentIsRootModule = false)
    (hv : d.isVarSymbol = true) (hp : d.isPrivate = false)
    (he : d.isExtern = false) (hc : d.isConst = true)
    (hcf : d.isCoforallIndexVar = false)
    (ht : HeapVars.isBroadcastableConstType d.ty = true)
    (hd : d.defCount = 1) :
    HeapVars.findHeapVarsAndRefsClassify false d = HeapVars.HeapAction.broadcast ∧
    ∀ defs : List HeapVars.GDef,
      d ∉ HeapVars.findHeapVarsAndRefsVarVec false defs := by
  have hcl : HeapVars.findHeapVarsAndRefsClassify false d
      = HeapVars.HeapAction.broadcast := by
    simp [HeapVars.findHeapVarsAndRefsClassify, hm, hr, hv, hp, he, hc, hcf, ht, hd]
  refine ⟨hcl, ?_⟩
  intro defs hmem
  have := (List.mem_filter.mp hmem).2
  simp only [decide_eq_true_eq] at this
  rw [hcl] at this
  exact HeapVars.HeapAction.noConfusion this

/-- C3 (witness). -/
theorem claim_C3_witness :
    (let d : HeapVars.GDef :=
      ⟨false, false, true, false, true, false, true, false, false, true,
        HeapVars.VTy.intTy, 1⟩
     HeapVars.findHeapVarsAndRefsClassify false d = HeapVars.HeapAction.broadcast ∧
     ∀ defs : List HeapVars.GDef,
       d ∉ HeapVars.findHeapVarsAndRefsVarVec false defs) :=
  claim_C3_const_broadcast _ rfl rfl rfl rfl rfl rfl rfl (by decide) rfl

/-- C6 (counterexample): `widenRefs` does not mirror the extern /
local-args exclusions of `widenClasses`: the ref-typed formal of an extern
function and the ref return type of an extern function are both rewritten
to the wide-ref type (here type `5` is mapped to wide type `50`), while the
class-symbol widening of the same extern formal leaves it unchanged. -/
theorem claim_C6_counterexample :
    Widen.widenRefsDef [(5, 50)]
        ⟨Widen.DefKind.argDef true 5, false, false, false, false⟩
      = ⟨Widen.DefKind.argDef true 50, false, false, false, false⟩ ∧
    Widen.widenRefsDef [(5, 50)]
        ⟨Widen.DefKind.fnDef true false 5, false, false, false, false⟩
      = ⟨Widen.DefKind.fnDef true false 50, false, false, false, false⟩ ∧
    Widen.widenRefsDef [(5, 50)]
        ⟨Widen.DefKind.fnDef false true 5, false, false, false, false⟩
      = ⟨Widen.DefKind.fnDef false true 50, false, false, false, false⟩ ∧
    Widen.widenClassesDef [(5, 50)]
        ⟨Widen.DefKind.argDef true 5, false, false, false, false⟩
      = ⟨Widen.DefKind.argDef true 5, false, false, false, false⟩ := by
  refine ⟨rfl, rfl, rfl, rfl⟩

/-- C6 (amended): ref-symbol widening applies only the two structural
exclusions (a field inside a wide layout, a super-class field); unlike
class-symbol widening it has no exclusion for formals of extern or
local-args functions nor for extern functions' return types — every symbol
whose type has an entry in `wideRefMap` is retyped to the wide-ref type
regardless of those flags. -/
theorem claim_C6_amended (m : List (Nat × Nat)) (d : Widen.SymDef)
    (h1 : d.parentIsWideRefType = false) (h2 : d.isSuperClassField = false) :
    Widen.defType (Widen.widenRefsDef m d)
      = Widen.widenLookup m (Widen.defType d) ∧
    ∀ d2 : Widen.SymDef,
      d2.parentIsWideRefType = true ∨ d2.isSuperClassField = true →
      Widen.widenRefsDef m d2 = d2 := by
  constructor
  · rcases d with ⟨kind, imm, pwc, pwr, sc⟩
    simp only at h1 h2
    subst h1; subst h2
    cases kind <;> simp [Widen.widenRefsDef, Widen.defType]
  · intro d2 h
    rcases h with h | h <;>
      simp [Widen.widenRefsDef, h]

/-- C6 (amended, witness). -/
theorem claim_C6_witness :
    (Widen.defType (Widen.widenRefsDef [(5, 50)]
        ⟨Widen.DefKind.argDef true 5, false, false, false, false⟩)
      = Widen.widenLookup [(5, 50)]
          (Widen.defType ⟨Widen.DefKind.argDef true 5, false, false, false, false⟩) ∧
    ∀ d2 : Widen.SymDef,
      d2.parentIsWideRefType = true ∨ d2.isSuperClassField = true →
      Widen.widenRefsDef [(5, 50)] d2 = d2) :=
  claim_C6_amended [(5, 50)] _ rfl rfl

/-- C7: when `requireWideReferences()` is false the emitted
`chpl__heapAllocateGlobals` consists only of a void return; otherwise its
body heap-allocates every promoted global inside the single conditional
guarded by `chpl_nodeID == 0`, registers each promoted global with a
distinct index `0..N-1` (in order), calls the broadcast primitive with
argument `N`, and ends with a void return. -/
theorem claim_C7_heapAllocateGlobals (heapVars : List Nat) :
    GlobalsInit.chplHeapAllocateGlobalsBody false heapVars
      = [GlobalsInit.GStmt.returnVoid] ∧
    (GlobalsInit.chplHeapAllocateGlobalsBody true heapVars).filterMap
        GlobalsInit.condAllocs = [heapVars] ∧
    (GlobalsInit.chplHeapAllocateGlobalsBody true heapVars).filterMap
        GlobalsInit.regPair = (List.range heapVars.length).zip heapVars ∧
    (GlobalsInit.chplHeapAllocateGlobalsBody true heapVars).filterMap
        GlobalsInit.broadcastArg = [heapVars.length] ∧
    (GlobalsInit.chplHeapAllocateGlobalsBody true heapVars).getLast?
      = some GlobalsInit.GStmt.returnVoid ∧
    GlobalsInit.chplHeapAllocateGlobalsBody true heapVars
      = [GlobalsInit.GStmt.defTmp 0, GlobalsInit.GStmt.defTmp 1,
          GlobalsInit.GStmt.moveNodeId, GlobalsInit.GStmt.moveEqZero,
          GlobalsInit.GStmt.condNodeZero heapVars]
          ++ GlobalsInit.registerLoop 0 heapVars
          ++ [GlobalsInit.GStmt.broadcastGlobals heapVars.length,
              GlobalsInit.GStmt.returnVoid] := by
  have hbody : GlobalsInit.chplHeapAllocateGlobalsBody true heapVars
      = [GlobalsInit.GStmt.defTmp 0, GlobalsInit.GStmt.defTmp 1,
          GlobalsInit.GStmt.moveNodeId, GlobalsInit.GStmt.moveEqZero,
          GlobalsInit.GStmt.condNodeZero heapVars]
          ++ GlobalsInit.registerLoop 0 heapVars
          ++ [GlobalsInit.GStmt.broadcastGlobals heapVars.length,
              GlobalsInit.GStmt.returnVoid] := by
    simp [GlobalsInit.chplHeapAllocateGlobalsBody, GlobalsInit.heapAllocateGlobalsHead,
      GlobalsInit.heapAllocateGlobalsTail]
  refine ⟨rfl, ?_, ?_, ?_, ?_, hbody⟩
  · rw [hbody]
    simp [List.filterMap_append, GlobalsInit.condAllocs,
      GlobalsInit.registerLoop_condAllocs]
  · rw [hbody]
    have := GlobalsInit.registerLoop_regPairs heapVars 0
    simp only [Nat.zero_add] at this
    simp [List.filterMap_append, GlobalsInit.regPair, this]
  · rw [hbody]
    simp [List.filterMap_append, GlobalsInit.broadcastArg,
      GlobalsInit.registerLoop_broadcastArg]
  · rw [hbody]
    rw [show [GlobalsInit.GStmt.broadcastGlobals heapVars.length,
              GlobalsInit.GStmt.returnVoid]
          = [GlobalsInit.GStmt.broadcastGlobals heapVars.length]
              ++ [GlobalsInit.GStmt.returnVoid] from rfl]
    rw [← List.append_assoc]
    exact List.getLast?_concat _

/-- C9: the heap-free analysis frees a promoted variable only when its def
map records exactly one definition; with any other def count the variable
is never freed, whatever the escape analysis would say. -/
theorem claim_C9_single_def (env : HeapFree.FreeEnv) (fuel v : Nat)
    (h : HeapFree.defCount env v ≠ 1) :
    HeapFree.freeHeapAllocatedVar env fuel v = some HeapFree.FreeResult.noFree ∧
    ∀ loc, HeapFree.freeHeapAllocatedVar env fuel v
      ≠ some (HeapFree.FreeResult.freed loc) := by
  have hr : HeapFree.freeHeapAllocatedVar env fuel v
      = some HeapFree.FreeResult.noFree := by
    simp [HeapFree.freeHeapAllocatedVar, h]
  refine ⟨hr, ?_⟩
  intro loc hcon
  rw [hr] at hcon
  simp at hcon

/-- C9 (witness): a variable with two recorded definitions is not freed. -/
theorem claim_C9_witness :
    HeapFree.defCount ⟨[], [], [(4, 2)], []⟩ 4 ≠ 1 ∧
    (HeapFree.freeHeapAllocatedVar ⟨[], [], [(4, 2)], []⟩ 3 4
        = some HeapFree.FreeResult.noFree ∧
      ∀ loc, HeapFree.freeHeapAllocatedVar ⟨[], [], [(4, 2)], []⟩ 3 4
        ≠ some (HeapFree.FreeResult.freed loc)) :=
  ⟨by decide, claim_C9_single_def _ _ _ (by decide)⟩

theorem WideString.buildWideClass_not_string (dtString : Nat)
    (st : WideString.WSState) (t : Nat) (h : ¬t = dtString) :
    WideString.buildWideClass dtString st t
      = some { wideStringType := st.wideStringType
               wideClassMap := (t, st.nextId) :: st.wideClassMap
               nextId := st.nextId + 1 } := by
  simp [WideString.buildWideClass, h]

theorem WideString.buildWideClass_string (dtString : Nat)
    (st : WideString.WSState) (h : st.wideStringType = none) :
    WideString.buildWideClass dtString st dtString
      = some { wideStringType := some st.nextId
               wideClassMap := (dtString, st.nextId) :: st.wideClassMap
               nextId := st.nextId + 1 } := by
  simp [WideString.buildWideClass, h]

theorem WideString.foldl_no_string (dtString : Nat) (l : List WideString.TS)
    (hl : ∀ ts ∈ l, ¬ts.ty = dtString) :
    ∀ st : WideString.WSState, st.wideStringType = none →
      ∃ st2,
        l.foldlM (fun s ts => WideString.buildWideClass dtString s ts.ty) st
          = some st2 ∧ st2.wideStringType = none := by
  induction l with
  | nil =>
      intro st h
      exact ⟨st, rfl, h⟩
  | cons a t ih =>
      intro st h
      have hne : ¬a.ty = dtString := hl a (List.mem_cons_self a t)
      have hstep := WideString.buildWideClass_not_string dtString st a.ty hne
      obtain ⟨st2, hfold, h2⟩ :=
        ih (fun ts hm => hl ts (List.mem_cons_of_mem a hm))
          { wideStringType := st.wideStringType
            wideClassMap := (a.ty, st.nextId) :: st.wideClassMap
            nextId := st.nextId + 1 } h
      refine ⟨st2, ?_, h2⟩
      rw [List.foldlM_cons, hstep]
      simpa using hfold

/-- C10: in one run of the pass the wide string type is built exactly once:
`widenClasses`' wide-class construction loop skips the string type (a
primitive, not a class), and the single dedicated `buildWideClass(dtString)`
call installs it, so the `INT_FATAL("Created two wide string types")`
branch is never reached (`buildWideClasses` succeeds).  Afterwards
`isWideString` answers true exactly for the one wide string type, and it
always answers false when `requireWideReferences()` is false. -/
theorem claim_C10_wide_string (dtString : Nat) (tss : List WideString.TS)
    (st0 : WideString.WSState)
    (h0 : st0.wideStringType = none)
    (hstr : ∀ ts ∈ tss, ts.ty = dtString → ts.isClass = false) :
    ∃ st', WideString.buildWideClasses dtString tss st0 = some st' ∧
      ∃ w, st'.wideStringType = some w ∧
        (∀ t, WideString.isWideString true st'.wideStringType t
            = some (decide (t = w))) ∧
        (∀ wst t, WideString.isWideString false wst t = some false) := by
  have hfiltered : ∀ ts ∈ tss.filter
      (fun ts => ts.isClass && !ts.isRef && !ts.noWideClass), ¬ts.ty = dtString := by
    intro ts hm hts
    have hmem := List.mem_filter.mp hm
    have hcls : ts.isClass = true := by
      have := hmem.2
      simp only [Bool.and_eq_true] at this
      exact this.1.1
    have := hstr ts hmem.1 hts
    rw [hcls] at this
    exact Bool.noConfusion this
  obtain ⟨st1, hfold, h1⟩ :=
    WideString.foldl_no_string dtString _ hfiltered st0 h0
  have hlast := WideString.buildWideClass_string dtString st1 h1
  refine ⟨{ wideStringType := some st1.nextId
            wideClassMap := (dtString, st1.nextId) :: st1.wideClassMap
            nextId := st1.nextId + 1 }, ?_, st1.nextId, rfl, ?_, ?_⟩
  · simp only [WideString.buildWideClasses, hfold]
    exact hlast
  · intro t
    simp [WideString.isWideString]
  · intro wst t
    simp [WideString.isWideString]

/-- C10 (witness). -/
theorem claim_C10_witness :
    ((⟨none, [], 200⟩ : WideString.WSState).wideStringType = none ∧
      (∀ ts ∈ ([⟨5, true, false, false⟩, ⟨100, false, false, false⟩,
          ⟨6, true, true, false⟩] : List WideString.TS),
        ts.ty = 100 → ts.isClass = false)) ∧
    (∃ st', WideString.buildWideClasses 100
        [⟨5, true, false, false⟩, ⟨100, false, false, false⟩,
          ⟨6, true, true, false⟩] ⟨none, [], 200⟩ = some st' ∧
      ∃ w, st'.wideStringType = some w ∧
        (∀ t, WideString.isWideString true st'.wideStringType t
            = some (decide (t = w))) ∧
        (∀ wst t, WideString.isWideString false wst t = some false)) :=
  ⟨⟨rfl, by decide⟩, claim_C10_wide_string 100 _ _ rfl (by decide)⟩

theorem EndCounts.ecMono_refl (st : EndCounts.ECState) : EndCounts.ecMono st st :=
  ⟨fun _ _ h => h, fun _ h => h, fun _ h => h⟩

theorem EndCounts.ecMono_trans {a b c : EndCounts.ECState}
    (h1 : EndCounts.ecMono a b) (h2 : EndCounts.ecMono b c) :
    EndCounts.ecMono a c :=
  ⟨fun g x h => h2.1 g x (h1.1 g x h),
   fun r h => h2.2.1 r (h1.2.1 r h),
   fun p h => h2.2.2 p (h1.2.2 p h)⟩

theorem EndCounts.rewriteFact_mono {st st2 : EndCounts.ECState}
    {c : EndCounts.ECall} (h : EndCounts.ecMono st st2)
    (hf : EndCounts.ecRewriteFact st c) : EndCounts.ecRewriteFact st2 c := by
  obtain ⟨hg, hs⟩ := hf
  constructor
  · intro ty hty
    obtain ⟨s, ty2, hl, hr⟩ := hg ty hty
    exact ⟨s, ty2, h.1 _ _ hl, h.2.1 _ hr⟩
  · intro ty hty
    obtain ⟨s, ty2, hl, hr⟩ := hs ty hty
    exact ⟨s, ty2, h.1 _ _ hl, h.2.1 _ hr⟩

theorem EndCounts.appendFact_mono {st st2 : EndCounts.ECState}
    {c : EndCounts.ECall} (h : EndCounts.ecMono st st2)
    (hf : EndCounts.ecAppendFact st c) : EndCounts.ecAppendFact st2 c := by
  obtain ⟨s, ty2, hl, ha⟩ := hf
  exact ⟨s, ty2, h.1 _ _ hl, h.2.2 _ ha⟩

theorem EndCounts.lookup_insert_self (mainFn fn ty : Nat)
    (st : EndCounts.ECState) :
    ∃ s, EndCounts.lookupEC (EndCounts.insertEndCount mainFn fn ty st) fn
      = some (s, ty) := by
  by_cases h : fn = mainFn
  · exact ⟨st.nextSym, by
      simp [EndCounts.insertEndCount, h, EndCounts.lookupEC, List.lookup]⟩
  · exact ⟨st.nextSym + 1, by
      simp [EndCounts.insertEndCount, h, EndCounts.lookupEC, List.lookup]⟩

theorem EndCounts.lookup_insert_other (mainFn fn ty g : Nat)
    (st : EndCounts.ECState) (hg : ¬g = fn) :
    EndCounts.lookupEC (EndCounts.insertEndCount mainFn fn ty st) g
      = EndCounts.lookupEC st g := by
  have hb : (g == fn) = false := by
    simp [hg]
  by_cases h : fn = mainFn
  · subst h
    simp [EndCounts.insertEndCount, EndCounts.lookupEC, List.lookup, hb]
  · simp [EndCounts.insertEndCount, h, EndCounts.lookupEC, List.lookup, hb]

theorem EndCounts.insert_fields (mainFn fn ty : Nat) (st : EndCounts.ECState) :
    (EndCounts.insertEndCount mainFn fn ty st).rewrites = st.rewrites ∧
    (EndCounts.insertEndCount mainFn fn ty st).appended = st.appended ∧
    (EndCounts.insertEndCount mainFn fn ty st).processedFns = st.processedFns ∧
    (EndCounts.insertEndCount mainFn fn ty st).queue = st.queue ++ [fn] ∧
    (∀ p ∈ st.mainHeadVars,
      p ∈ (EndCounts.insertEndCount mainFn fn ty st).mainHeadVars) ∧
    (∀ p ∈ st.addedFormals,
      p ∈ (EndCounts.insertEndCount mainFn fn ty st).addedFormals) := by
  by_cases h : fn = mainFn
  · unfold EndCounts.insertEndCount
    rw [if_pos h]
    exact ⟨rfl, rfl, rfl, rfl,
      fun p hp => List.mem_cons_of_mem _ hp, fun p hp => hp⟩
  · unfold EndCounts.insertEndCount
    rw [if_neg h]
    exact ⟨rfl, rfl, rfl, rfl,
      fun p hp => hp, fun p hp => List.mem_cons_of_mem _ hp⟩

theorem EndCounts.ensure_mono (mainFn fn ty : Nat) (st : EndCounts.ECState) :
    EndCounts.ecMono st (EndCounts.ensureEndCount mainFn fn ty st) := by
  unfold EndCounts.ensureEndCount
  cases hl : EndCounts.lookupEC st fn with
  | some v => exact EndCounts.ecMono_refl st
  | none =>
      refine ⟨?_, ?_, ?_⟩
      · intro g x hgx
        have hne : ¬g = fn := by
          intro he
          rw [he, hl] at hgx
          exact Option.noConfusion hgx
        rw [EndCounts.lookup_insert_other mainFn fn ty g st hne]
        exact hgx
      · intro r hr
        rw [(EndCounts.insert_fields mainFn fn ty st).1]
        exact hr
      · intro p hp
        rw [(EndCounts.insert_fields mainFn fn ty st).2.1]
        exact hp

theorem EndCounts.ensure_self (mainFn fn ty : Nat) (st : EndCounts.ECState) :
    ∃ s ty2, EndCounts.lookupEC (EndCounts.ensureEndCount mainFn fn ty st) fn
      = some (s, ty2) := by
  unfold EndCounts.ensureEndCount
  cases hl : EndCounts.lookupEC st fn with
  | some v => exact ⟨v.1, v.2, by rw [hl]⟩
  | none =>
      obtain ⟨s, hs⟩ := EndCounts.lookup_insert_self mainFn fn ty st
      exact ⟨s, ty, hs⟩

theorem EndCounts.ensure_fields (mainFn fn ty : Nat) (st : EndCounts.ECState) :
    (EndCounts.ensureEndCount mainFn fn ty st).rewrites = st.rewrites ∧
    (EndCounts.ensureEndCount mainFn fn ty st).appended = st.appended ∧
    (EndCounts.ensureEndCount mainFn fn ty st).processedFns = st.processedFns ∧
    (∀ q ∈ st.queue, q ∈ (EndCounts.ensureEndCount mainFn fn ty st).queue) := by
  unfold EndCounts.ensureEndCount
  cases hl : EndCounts.lookupEC st fn with
  | some v => exact ⟨rfl, rfl, rfl, fun q hq => hq⟩
  | none =>
      obtain ⟨h1, h2, h3, h4, _, _⟩ := EndCounts.insert_fields mainFn fn ty st
      refine ⟨h1, h2, h3, fun q hq => ?_⟩
      rw [h4]
      exact List.mem_append_left _ hq

theorem EndCounts.ensure_mapOK (mainFn τ fn : Nat) (st : EndCounts.ECState)
    (hm : EndCounts.ecMapOK mainFn τ st) :
    EndCounts.ecMapOK mainFn τ (EndCounts.ensureEndCount mainFn fn τ st) := by
  unfold EndCounts.ensureEndCount
  cases hl : EndCounts.lookupEC st fn with
  | some v => exact hm
  | none =>
      intro g s ty hg
      by_cases hgn : g = fn
      · subst hgn
        obtain ⟨s0, hs0⟩ := EndCounts.lookup_insert_self mainFn g τ st
        have hinj := Option.some.inj (hs0.symm.trans hg)
        have hty : ty = τ := (congrArg Prod.snd hinj).symm
        subst hty
        constructor
        · rfl
        · constructor
          · intro hgm
            simp only [EndCounts.insertEndCount, if_pos hgm]
            exact List.mem_cons_self _ _
          · intro hgm
            simp only [EndCounts.insertEndCount, if_neg hgm]
            exact List.mem_cons_self _ _
      · rw [EndCounts.lookup_insert_other mainFn fn τ g st hgn] at hg
        obtain ⟨ht, hmv, haf⟩ := hm g s ty hg
        obtain ⟨_, _, _, _, hmv2, haf2⟩ := EndCounts.insert_fields mainFn fn τ st
        exact ⟨ht, fun hx => hmv2 _ (hmv hx), fun hx => haf2 _ (haf hx)⟩

theorem EndCounts.ensure_queueOK (mainFn fn ty : Nat) (st : EndCounts.ECState)
    (hq : EndCounts.ecQueueOK st) :
    EndCounts.ecQueueOK (EndCounts.ensureEndCount mainFn fn ty st) := by
  intro g hg
  have hmono := EndCounts.ensure_mono mainFn fn ty st
  unfold EndCounts.ensureEndCount at hg ⊢
  cases hl : EndCounts.lookupEC st fn with
  | some v =>
      rw [hl] at hg
      exact hq g hg
  | none =>
      rw [hl] at hg
      obtain ⟨_, _, _, h4, _, _⟩ := EndCounts.insert_fields mainFn fn ty st
      rw [h4] at hg
      rcases List.mem_append.mp hg with hgo | hgf
      · have := hq g hgo
        intro hnone
        apply this
        by_cases hgn : g = fn
        · subst hgn
          rw [hl]
        · rw [EndCounts.lookup_insert_other mainFn fn ty g st hgn] at hnone
          exact hnone
      · have hgf : g = fn := by
          simpa using hgf
        subst hgf
        obtain ⟨s, hs⟩ := EndCounts.lookup_insert_self mainFn g ty st
        intro hnone
        rw [hs] at hnone
        exact Option.noConfusion hnone

theorem EndCounts.ensure_domOKx (mainFn fn ty : Nat) (st : EndCounts.ECState)
    (x : Option Nat) (hd : EndCounts.ecDomOKx st x) :
    EndCounts.ecDomOKx (EndCounts.ensureEndCount mainFn fn ty st) x := by
  intro g hg
  revert hg
  unfold EndCounts.ensureEndCount
  cases hl : EndCounts.lookupEC st fn with
  | some v =>
      intro hg
      exact hd g hg
  | none =>
      intro hg
      have hg2 : ¬EndCounts.lookupEC (EndCounts.insertEndCount mainFn fn ty st) g
          = none := hg
      show g ∈ (EndCounts.insertEndCount mainFn fn ty st).processedFns ∨
        g ∈ (EndCounts.insertEndCount mainFn fn ty st).queue ∨ some g = x
      obtain ⟨_, _, h3, h4, _, _⟩ := EndCounts.insert_fields mainFn fn ty st
      rw [h3, h4]
      by_cases hgn : g = fn
      · subst hgn
        right; left
        exact List.mem_append_right _ (List.mem_singleton.mpr rfl)
      · rw [EndCounts.lookup_insert_other mainFn fn ty g st hgn] at hg2
        rcases hd g hg2 with h | h | h
        · exact Or.inl h
        · exact Or.inr (Or.inl (List.mem_append_left _ h))
        · exact Or.inr (Or.inr h)

theorem EndCounts.sweepCall_facts (mainFn τ : Nat) (st : EndCounts.ECState)
    (c : EndCounts.ECall)
    (hc : ∀ t, EndCounts.primTy c.prim = some t → t = τ)
    (hm : EndCounts.ecMapOK mainFn τ st) (hq : EndCounts.ecQueueOK st)
    (hd : EndCounts.ecDomOKx st none) :
    EndCounts.ecMono st (EndCounts.sweepCall mainFn st c) ∧
    EndCounts.ecMapOK mainFn τ (EndCounts.sweepCall mainFn st c) ∧
    EndCounts.ecQueueOK (EndCounts.sweepCall mainFn st c) ∧
    EndCounts.ecDomOKx (EndCounts.sweepCall mainFn st c) none ∧
    EndCounts.ecRewriteFact (EndCounts.sweepCall mainFn st c) c ∧
    (EndCounts.sweepCall mainFn st c).appended = st.appended ∧
    (EndCounts.sweepCall mainFn st c).processedFns = st.processedFns := by
  cases hp : c.prim with
  | nonePrim =>
      simp only [EndCounts.sweepCall, hp]
      refine ⟨EndCounts.ecMono_refl st, hm, hq, hd, ?_, trivial, trivial⟩
      constructor <;> intro ty hty <;> rw [hp] at hty <;>
        exact EndCounts.ECPrim.noConfusion hty
  | getEndCount ty0 =>
      have hty0 : ty0 = τ := hc ty0 (by rw [hp]; rfl)
      subst hty0
      simp only [EndCounts.sweepCall, hp]
      obtain ⟨s, ty2, hs⟩ := EndCounts.ensure_self mainFn c.inFn ty0 st
      rw [hs]
      set st1 := EndCounts.ensureEndCount mainFn c.inFn ty0 st with hst1
      have hmono1 := EndCounts.ensure_mono mainFn c.inFn ty0 st
      have hm1 : EndCounts.ecMapOK mainFn ty0 st1 :=
        EndCounts.ensure_mapOK mainFn ty0 c.inFn st hm
      have hq1 : EndCounts.ecQueueOK st1 :=
        EndCounts.ensure_queueOK mainFn c.inFn ty0 st hq
      have hd1 : EndCounts.ecDomOKx st1 none :=
        EndCounts.ensure_domOKx mainFn c.inFn ty0 st none hd
      have hfields := EndCounts.ensure_fields mainFn c.inFn ty0 st
      refine ⟨?_, ?_, ?_, ?_, ?_, ?_, ?_⟩
      · refine EndCounts.ecMono_trans hmono1 ⟨fun g x h => h, ?_, fun p h => h⟩
        intro r hr
        exact List.mem_cons_of_mem _ hr
      · exact hm1
      · exact hq1
      · exact hd1
      · constructor
        · intro ty hty
          rw [hp] at hty
          have : ty = ty0 := by
            cases hty
            rfl
          subst this
          exact ⟨s, ty2, hs, List.mem_cons_self _ _⟩
        · intro ty hty
          rw [hp] at hty
          exact EndCounts.ECPrim.noConfusion hty
      · exact hfields.2.1
      · exact hfields.2.2.1
  | setEndCount ty0 =>
      have hty0 : ty0 = τ := hc ty0 (by rw [hp]; rfl)
      subst hty0
      simp only [EndCounts.sweepCall, hp]
      obtain ⟨s, ty2, hs⟩ := EndCounts.ensure_self mainFn c.inFn ty0 st
      rw [hs]
      set st1 := EndCounts.ensureEndCount mainFn c.inFn ty0 st with hst1
      have hmono1 := EndCounts.ensure_mono mainFn c.inFn ty0 st
      have hm1 : EndCounts.ecMapOK mainFn ty0 st1 :=
        EndCounts.ensure_mapOK mainFn ty0 c.inFn st hm
      have hq1 : EndCounts.ecQueueOK st1 :=
        EndCounts.ensure_queueOK mainFn c.inFn ty0 st hq
      have hd1 : EndCounts.ecDomOKx st1 none :=
        EndCounts.ensure_domOKx mainFn c.inFn ty0 st none hd
      have hfields := EndCounts.ensure_fields mainFn c.inFn ty0 st
      refine ⟨?_, ?_, ?_, ?_, ?_, ?_, ?_⟩
      · refine EndCounts.ecMono_trans hmono1 ⟨fun g x h => h, ?_, fun p h => h⟩
        intro r hr
        exact List.mem_cons_of_mem _ hr
      · exact hm1
      · exact hq1
      · exact hd1
      · constructor
        · intro ty hty
          rw [hp] at hty
          exact EndCounts.ECPrim.noConfusion hty
        · intro ty hty
          rw [hp] at hty
          have : ty = ty0 := by
            cases hty
            rfl
          subst this
          exact ⟨s, ty2, hs, List.mem_cons_self _ _⟩
      · exact hfields.2.1
      · exact hfields.2.2.1

theorem EndCounts.sweep_fold (mainFn τ : Nat) (l : List EndCounts.ECall) :
    ∀ st : EndCounts.ECState,
      (∀ c ∈ l, ∀ t, EndCounts.primTy c.prim = some t → t = τ) →
      EndCounts.ecMapOK mainFn τ st → EndCounts.ecQueueOK st →
      EndCounts.ecDomOKx st none →
      EndCounts.ecMono st (l.foldl (EndCounts.sweepCall mainFn) st) ∧
      EndCounts.ecMapOK mainFn τ (l.foldl (EndCounts.sweepCall mainFn) st) ∧
      EndCounts.ecQueueOK (l.foldl (EndCounts.sweepCall mainFn) st) ∧
      EndCounts.ecDomOKx (l.foldl (EndCounts.sweepCall mainFn) st) none ∧
      (∀ c ∈ l, EndCounts.ecRewriteFact (l.foldl (EndCounts.sweepCall mainFn) st) c) ∧
      (l.foldl (EndCounts.sweepCall mainFn) st).appended = st.appended ∧
      (l.foldl (EndCounts.sweepCall mainFn) st).processedFns = st.processedFns := by
  induction l with
  | nil =>
      intro st _ hm hq hd
      exact ⟨EndCounts.ecMono_refl st, hm, hq, hd, fun c hc => absurd hc (List.not_mem_nil c),
        rfl, rfl⟩
  | cons a t ih =>
      intro st hl hm hq hd
      obtain ⟨hmono, hm1, hq1, hd1, hfact, happ, hproc⟩ :=
        EndCounts.sweepCall_facts mainFn τ st a
          (hl a (List.mem_cons_self a t)) hm hq hd
      obtain ⟨hmono2, hm2, hq2, hd2, hfacts2, happ2, hproc2⟩ :=
        ih (EndCounts.sweepCall mainFn st a)
          (fun c hc => hl c (List.mem_cons_of_mem a hc)) hm1 hq1 hd1
      simp only [List.foldl_cons]
      refine ⟨EndCounts.ecMono_trans hmono hmono2, hm2, hq2, hd2, ?_,
        happ2.trans happ, hproc2.trans hproc⟩
      intro c hc
      rcases List.mem_cons.mp hc with rfl | hct
      · exact EndCounts.rewriteFact_mono hmono2 hfact
      · exact hfacts2 c hct

theorem EndCounts.propagate_facts (mainFn τ : Nat) (st : EndCounts.ECState)
    (c : EndCounts.ECall) (x : Option Nat)
    (hm : EndCounts.ecMapOK mainFn τ st) (hq : EndCounts.ecQueueOK st)
    (hd : EndCounts.ecDomOKx st x) :
    EndCounts.ecMono st (EndCounts.propagateCallSite mainFn τ st c) ∧
    EndCounts.ecMapOK mainFn τ (EndCounts.propagateCallSite mainFn τ st c) ∧
    EndCounts.ecQueueOK (EndCounts.propagateCallSite mainFn τ st c) ∧
    EndCounts.ecDomOKx (EndCounts.propagateCallSite mainFn τ st c) x ∧
    EndCounts.ecAppendFact (EndCounts.propagateCallSite mainFn τ st c) c ∧
    (EndCounts.propagateCallSite mainFn τ st c).rewrites = st.rewrites ∧
    (EndCounts.propagateCallSite mainFn τ st c).processedFns = st.processedFns := by
  obtain ⟨s, ty2, hs⟩ := EndCounts.ensure_self mainFn c.inFn τ st
  have hmono1 := EndCounts.ensure_mono mainFn c.inFn τ st
  have hm1 := EndCounts.ensure_mapOK mainFn τ c.inFn st hm
  have hq1 := EndCounts.ensure_queueOK mainFn c.inFn τ st hq
  have hd1 := EndCounts.ensure_domOKx mainFn c.inFn τ st x hd
  have hfields := EndCounts.ensure_fields mainFn c.inFn τ st
  simp only [EndCounts.propagateCallSite, hs]
  refine ⟨?_, hm1, hq1, hd1, ?_, ?_, ?_⟩
  · refine EndCounts.ecMono_trans hmono1 ⟨fun g v h => h, fun r h => h, ?_⟩
    intro p hp
    exact List.mem_cons_of_mem _ hp
  · exact ⟨s, ty2, hs, List.mem_cons_self _ _⟩
  · exact hfields.1
  · exact hfields.2.2.1

theorem EndCounts.propagate_fold (mainFn τ : Nat) (l : List EndCounts.ECall)
    (x : Option Nat) :
    ∀ st : EndCounts.ECState,
      EndCounts.ecMapOK mainFn τ st → EndCounts.ecQueueOK st →
      EndCounts.ecDomOKx st x →
      EndCounts.ecMono st (l.foldl (EndCounts.propagateCallSite mainFn τ) st) ∧
      EndCounts.ecMapOK mainFn τ (l.foldl (EndCounts.propagateCallSite mainFn τ) st) ∧
      EndCounts.ecQueueOK (l.foldl (EndCounts.propagateCallSite mainFn τ) st) ∧
      EndCounts.ecDomOKx (l.foldl (EndCounts.propagateCallSite mainFn τ) st) x ∧
      (∀ c ∈ l, EndCounts.ecAppendFact
        (l.foldl (EndCounts.propagateCallSite mainFn τ) st) c) ∧
      (l.foldl (EndCounts.propagateCallSite mainFn τ) st).rewrites = st.rewrites ∧
      (l.foldl (EndCounts.propagateCallSite mainFn τ) st).processedFns
        = st.processedFns := by
  induction l with
  | nil =>
      intro st hm hq hd
      exact ⟨EndCounts.ecMono_refl st, hm, hq, hd,
        fun c hc => absurd hc (List.not_mem_nil c), rfl, rfl⟩
  | cons a t ih =>
      intro st hm hq hd
      obtain ⟨hmono, hm1, hq1, hd1, hfact, hrw, hproc⟩ :=
        EndCounts.propagate_facts mainFn τ st a x hm hq hd
      obtain ⟨hmono2, hm2, hq2, hd2, hfacts2, hrw2, hproc2⟩ :=
        ih (EndCounts.propagateCallSite mainFn τ st a) hm1 hq1 hd1
      simp only [List.foldl_cons]
      refine ⟨EndCounts.ecMono_trans hmono hmono2, hm2, hq2, hd2, ?_,
        hrw2.trans hrw, hproc2.trans hproc⟩
      intro c hc
      rcases List.mem_cons.mp hc with rfl | hct
      · exact EndCounts.appendFact_mono hmono2 hfact
      · exact hfacts2 c hct

theorem EndCounts.loop_facts (mainFn τ : Nat) (calls : List EndCounts.ECall) :
    ∀ (fuel : Nat) (st st' : EndCounts.ECState),
      EndCounts.insertEndCountsLoop mainFn calls fuel st = some st' →
      EndCounts.ecMapOK mainFn τ st → EndCounts.ecQueueOK st →
      EndCounts.ecDomOKx st none →
      (∀ c ∈ calls, EndCounts.ecRewriteFact st c) →
      EndCounts.ecAppendOK calls st →
      EndCounts.ecMapOK mainFn τ st' ∧
      (∀ c ∈ calls, EndCounts.ecRewriteFact st' c) ∧
      EndCounts.ecAppendOK calls st' ∧
      st'.queue = [] ∧ EndCounts.ecDomOKx st' none := by
  intro fuel
  induction fuel with
  | zero =>
      intro st st' h hm hq hd hrw hap
      unfold EndCounts.insertEndCountsLoop at h
      cases hq0 : st.queue with
      | nil =>
          simp only [hq0] at h
          obtain rfl := Option.some.inj h
          exact ⟨hm, hrw, hap, hq0, hd⟩
      | cons fn rest =>
          simp only [hq0] at h
          exact Option.noConfusion h
  | succ fuel ih =>
      intro st st' h hm hq hd hrw hap
      unfold EndCounts.insertEndCountsLoop at h
      cases hq0 : st.queue with
      | nil =>
          simp only [hq0] at h
          obtain rfl := Option.some.inj h
          exact ⟨hm, hrw, hap, hq0, hd⟩
      | cons fn rest =>
          simp only [hq0] at h
          cases hl : EndCounts.lookupEC st fn with
          | none =>
              simp only [hl] at h
              exact Option.noConfusion h
          | some v =>
              obtain ⟨s0, ty⟩ := v
              simp only [hl] at h
              have hty : ty = τ := (hm fn s0 ty hl).1
              subst hty
              -- the dequeued state
              have hm1 : EndCounts.ecMapOK mainFn ty { st with queue := rest } := hm
              have hq1 : EndCounts.ecQueueOK { st with queue := rest } := by
                intro g hg
                exact hq g (by rw [hq0]; exact List.mem_cons_of_mem fn hg)
              have hd1 : EndCounts.ecDomOKx { st with queue := rest } (some fn) := by
                intro g hg
                rcases hd g hg with hh | hh | hh
                · exact Or.inl hh
                · rw [hq0] at hh
                  rcases List.mem_cons.mp hh with rfl | hh
                  · exact Or.inr (Or.inr rfl)
                  · exact Or.inr (Or.inl hh)
                · exact Option.noConfusion hh
              obtain ⟨hmono2, hm2, hq2, hd2, hfacts2, hrw2, hproc2⟩ :=
                EndCounts.propagate_fold mainFn ty
                  (calls.filter (fun c => c.callee = some fn)) (some fn)
                  { st with queue := rest } hm1 hq1 hd1
              set st2 := (calls.filter (fun c => c.callee = some fn)).foldl
                (EndCounts.propagateCallSite mainFn ty) { st with queue := rest }
                with hst2
              -- invariants for the state entering the recursive call
              have hm3 : EndCounts.ecMapOK mainFn ty
                  { st2 with processedFns := fn :: st2.processedFns } := hm2
              have hq3 : EndCounts.ecQueueOK
                  { st2 with processedFns := fn :: st2.processedFns } := hq2
              have hd3 : EndCounts.ecDomOKx
                  { st2 with processedFns := fn :: st2.processedFns } none := by
                intro g hg
                rcases hd2 g hg with hh | hh | hh
                · exact Or.inl (List.mem_cons_of_mem fn hh)
                · exact Or.inr (Or.inl hh)
                · have : g = fn := Option.some.inj hh
                  subst this
                  exact Or.inl (List.mem_cons_self g _)
              have hrw3 : ∀ c ∈ calls, EndCounts.ecRewriteFact
                  { st2 with processedFns := fn :: st2.processedFns } c := by
                intro c hc
                exact EndCounts.rewriteFact_mono hmono2 (hrw c hc)
              have hap3 : EndCounts.ecAppendOK calls
                  { st2 with processedFns := fn :: st2.processedFns } := by
                intro fn2 hfn2 c hc hcallee
                rcases List.mem_cons.mp hfn2 with rfl | hfn2
                · have hcf : c ∈ calls.filter (fun c => c.callee = some fn2) := by
                    rw [List.mem_filter]
                    exact ⟨hc, by simp [hcallee]⟩
                  exact hfacts2 c hcf
                · have hfn2' : fn2 ∈ st.processedFns := by
                    rw [hproc2] at hfn2
                    exact hfn2
                  exact EndCounts.appendFact_mono hmono2 (hap fn2 hfn2' c hc hcallee)
              exact ih { st2 with processedFns := fn :: st2.processedFns } st' h
                hm3 hq3 hd3 hrw3 hap3

/-- C8: assuming the program's end-count primitives all carry the unique
end-count type `τ` (the resolved IR has a single `_EndCount` type), a
successful run of `insertEndCounts` (1) replaces every `get_end_count`
primitive by a reference to the containing function's end-count symbol and
every `set_end_count` by a move into that symbol; (2) for every function
placed in the work queue (= every function holding an end count, all of
which are processed), every one of its call sites receives the caller's
end-count symbol as an additional last actual, the caller holding an end
count of the same type `τ`; and (3) every end-count was acquired as a
fresh variable at the head of `chpl_gen_main`, or as a new trailing formal
plus a local copy for any other function. -/
theorem claim_C8_end_counts (mainFn τ fuel : Nat)
    (calls : List EndCounts.ECall) (st' : EndCounts.ECState)
    (hτ : ∀ c ∈ calls, ∀ t, EndCounts.primTy c.prim = some t → t = τ)
    (h : EndCounts.insertEndCounts mainFn calls fuel = some st') :
    (∀ c ∈ calls, EndCounts.ecRewriteFact st' c) ∧
    EndCounts.ecAppendOK calls st' ∧
    (∀ fn ∈ st'.processedFns, ∀ c ∈ calls, c.callee = some fn →
      ∃ s, EndCounts.lookupEC st' c.inFn = some (s, τ) ∧
        (c.id, s) ∈ st'.appended) ∧
    (∀ fn s ty, EndCounts.lookupEC st' fn = some (s, ty) →
      ty = τ ∧ fn ∈ st'.processedFns ∧
      (fn = mainFn → (fn, ty) ∈ st'.mainHeadVars) ∧
      (¬fn = mainFn → (fn, ty) ∈ st'.addedFormals)) := by
  have hm0 : EndCounts.ecMapOK mainFn τ EndCounts.ecInit := by
    intro fn s ty h0
    simp [EndCounts.lookupEC, EndCounts.ecInit, List.lookup] at h0
  have hq0 : EndCounts.ecQueueOK EndCounts.ecInit := by
    intro fn hfn
    simp [EndCounts.ecInit] at hfn
  have hd0 : EndCounts.ecDomOKx EndCounts.ecInit none := by
    intro fn hfn
    exact absurd rfl hfn
  obtain ⟨hmono1, hm1, hq1, hd1, hfacts1, happ1, hproc1⟩ :=
    EndCounts.sweep_fold mainFn τ calls EndCounts.ecInit hτ hm0 hq0 hd0
  have hap1 : EndCounts.ecAppendOK calls
      (calls.foldl (EndCounts.sweepCall mainFn) EndCounts.ecInit) := by
    intro fn hfn
    rw [hproc1] at hfn
    exact absurd hfn (List.not_mem_nil fn)
  obtain ⟨hmF, hrwF, hapF, hqF, hdF⟩ :=
    EndCounts.loop_facts mainFn τ calls fuel _ st' h hm1 hq1 hd1 hfacts1 hap1
  refine ⟨hrwF, hapF, ?_, ?_⟩
  · intro fn hfn c hc hcallee
    obtain ⟨s, ty2, hl, ha⟩ := hapF fn hfn c hc hcallee
    have hty2 : ty2 = τ := (hmF c.inFn s ty2 hl).1
    subst hty2
    exact ⟨s, hl, ha⟩
  · intro fn s ty hl
    obtain ⟨hty, hmv, haf⟩ := hmF fn s ty hl
    have hproc : fn ∈ st'.processedFns := by
      rcases hdF fn (by rw [hl]; exact fun hc => Option.noConfusion hc) with hh | hh | hh
      · exact hh
      · rw [hqF] at hh
        exact absurd hh (List.not_mem_nil fn)
      · exact Option.noConfusion hh
    exact ⟨hty, hproc, hmv, haf⟩

/-- C8 (witness). -/
theorem claim_C8_witness :
    ∃ st', EndCounts.insertEndCounts 9 EndCounts.ecExampleCalls 10 = some st' ∧
      ((∀ c ∈ EndCounts.ecExampleCalls, EndCounts.ecRewriteFact st' c) ∧
      EndCounts.ecAppendOK EndCounts.ecExampleCalls st' ∧
      (∀ fn ∈ st'.processedFns, ∀ c ∈ EndCounts.ecExampleCalls,
        c.callee = some fn →
        ∃ s, EndCounts.lookupEC st' c.inFn = some (s, 42) ∧
          (c.id, s) ∈ st'.appended) ∧
      (∀ fn s ty, EndCounts.lookupEC st' fn = some (s, ty) →
        ty = 42 ∧ fn ∈ st'.processedFns ∧
        (fn = 9 → (fn, ty) ∈ st'.mainHeadVars) ∧
        (¬fn = 9 → (fn, ty) ∈ st'.addedFormals))) :=
  ⟨_, rfl, claim_C8_end_counts 9 42 10 EndCounts.ecExampleCalls _ (by decide) rfl⟩

theorem LocalBlocks.lookup_some_mem : ∀ {l : List (Nat × Nat)} {k v : Nat},
    l.lookup k = some v → (k, v) ∈ l := by
  intro l
  induction l with
  | nil =>
      intro k v h
      exact absurd h (by simp [List.lookup])
  | cons a t ih =>
      intro k v h
      rcases a with ⟨k2, v2⟩
      by_cases hk : k = k2
      · subst hk
        have hb : (k == k) = true := by simp
        simp only [List.lookup, hb] at h
        obtain rfl := Option.some.inj h
        exact List.mem_cons_self _ _
      · have hb : (k == k2) = false := by simp [hk]
        simp only [List.lookup, hb] at h
        exact List.mem_cons_of_mem _ (ih h)

theorem LocalBlocks.lookup_none_keys : ∀ {l : List (Nat × Nat)} {k : Nat},
    l.lookup k = none → k ∉ l.map Prod.fst := by
  intro l
  induction l with
  | nil =>
      intro k _ hm
      simp at hm
  | cons a t ih =>
      intro k h hm
      rcases a with ⟨k2, v2⟩
      by_cases hk : k = k2
      · subst hk
        have hb : (k == k) = true := by simp
        simp only [List.lookup, hb] at h
        exact Option.noConfusion h
      · have hb : (k == k2) = false := by simp [hk]
        simp only [List.lookup, hb] at h
        rcases List.mem_cons.mp hm with h1 | h1
        · exact hk h1
        · exact ih h h1

theorem LocalBlocks.nodup_keys_unique : ∀ {l : List (Nat × Nat)} {k v1 v2 : Nat},
    (l.map Prod.fst).Nodup → (k, v1) ∈ l → (k, v2) ∈ l → v1 = v2 := by
  intro l
  induction l with
  | nil =>
      intro k v1 v2 _ h1 _
      exact absurd h1 (List.not_mem_nil _)
  | cons a t ih =>
      intro k v1 v2 hnd h1 h2
      rcases a with ⟨k2, w⟩
      have hnd2 := List.nodup_cons.mp hnd
      rcases List.mem_cons.mp h1 with e1 | m1
      · rcases List.mem_cons.mp h2 with e2 | m2
        · rw [Prod.mk.injEq] at e1 e2
          exact e1.2.trans e2.2.symm
        · rw [Prod.mk.injEq] at e1
          exfalso
          apply hnd2.1
          rw [← e1.1]
          exact List.mem_map.mpr ⟨(k, v2), m2, rfl⟩
      · rcases List.mem_cons.mp h2 with e2 | m2
        · rw [Prod.mk.injEq] at e2
          exfalso
          apply hnd2.1
          rw [← e2.1]
          exact List.mem_map.mpr ⟨(k, v1), m1, rfl⟩
        · exact ih hnd2.2 m1 m2

theorem LocalBlocks.getD_append_lt (l : List LocalBlocks.LFn)
    (x d : LocalBlocks.LFn) (i : Nat) (h : i < l.length) :
    (l ++ [x]).getD i d = l.getD i d := by
  rw [List.getD_eq_get?, List.getD_eq_get?, List.get?_eq_getElem?,
    List.get?_eq_getElem?, List.getElem?_append_left h]

theorem LocalBlocks.getD_append_len (l : List LocalBlocks.LFn)
    (x d : LocalBlocks.LFn) :
    (l ++ [x]).getD l.length d = x := by
  rw [List.getD_eq_get?, List.get?_eq_getElem?,
    List.getElem?_append_right (Nat.le_refl _)]
  simp

theorem LocalBlocks.setBody_length (fns : List LocalBlocks.LFn) (j : Nat)
    (b : List Nat) :
    (LocalBlocks.setBody fns j b).length = fns.length := by
  unfold LocalBlocks.setBody
  cases h : fns.get? j with
  | none => rfl
  | some f => exact List.length_set fns j _

theorem LocalBlocks.setBody_getD_ne (fns : List LocalBlocks.LFn) (j : Nat)
    (b : List Nat) (i : Nat) (d : LocalBlocks.LFn) (h : ¬i = j) :
    (LocalBlocks.setBody fns j b).getD i d = fns.getD i d := by
  unfold LocalBlocks.setBody
  cases hj : fns.get? j with
  | none => rfl
  | some f =>
      rw [List.getD_eq_get?, List.getD_eq_get?, List.get?_eq_getElem?,
        List.get?_eq_getElem?]
      rw [List.getElem?_set_ne (fun he => h he.symm)]

theorem LocalBlocks.setBody_getD_self (fns : List LocalBlocks.LFn) (j : Nat)
    (b : List Nat) (d : LocalBlocks.LFn) (h : j < fns.length) :
    (LocalBlocks.setBody fns j b).getD j d
      = { fns.getD j d with body := b } := by
  unfold LocalBlocks.setBody
  cases hj : fns.get? j with
  | none =>
      exfalso
      rw [List.get?_eq_getElem?, List.getElem?_eq_none_iff] at hj
      omega
  | some f =>
      have hf : fns.getD j d = f := by
        rw [List.getD_eq_get?, hj]
        rfl
      rw [hf, List.getD_eq_get?, List.get?_eq_getElem?,
        List.getElem?_set_eq_of_lt _ h]
      rfl

theorem LocalBlocks.lbMonoS_refl (st : LocalBlocks.LState) :
    LocalBlocks.lbMonoS st st :=
  ⟨Nat.le_refl _, fun _ _ => rfl, fun _ h => h⟩

theorem LocalBlocks.lbMonoS_trans {a b c : LocalBlocks.LState}
    (h1 : LocalBlocks.lbMonoS a b) (h2 : LocalBlocks.lbMonoS b c) :
    LocalBlocks.lbMonoS a c := by
  refine ⟨Nat.le_trans h1.1 h2.1, ?_, fun p hp => h2.2.2 p (h1.2.2 p hp)⟩
  intro i hi
  rw [h2.2.1 i (Nat.lt_of_lt_of_le hi h1.1), h1.2.1 i hi]

theorem LocalBlocks.cloneShape_monoS {st st2 : LocalBlocks.LState} {i : Nat}
    (hm : LocalBlocks.lbMonoS st st2) (hi : i < st.fns.length)
    (hs : LocalBlocks.cloneShape st i) : LocalBlocks.cloneShape st2 i := by
  obtain ⟨h1, h2, o, h3, h4, h5, h6⟩ := hs
  rw [LocalBlocks.cloneShape, hm.2.1 i hi]
  exact ⟨h1, h2, o, h3, Nat.lt_of_lt_of_le h4 hm.1,
    by rw [hm.2.1 o h4]; exact h5, by rw [hm.2.1 o h4]; exact h6⟩

theorem LocalBlocks.targetsLocal_monoS {st st2 : LocalBlocks.LState} {c : Nat}
    (hm : LocalBlocks.lbMonoS st st2) (ht : LocalBlocks.targetsLocalClone st c) :
    LocalBlocks.targetsLocalClone st2 c := by
  obtain ⟨hlt, himp⟩ := ht
  refine ⟨Nat.lt_of_lt_of_le hlt hm.1, ?_⟩
  intro hne
  rw [hm.2.1 c hlt] at hne
  exact LocalBlocks.cloneShape_monoS hm hlt (himp hne)

theorem LocalBlocks.fnAt_get? {st : LocalBlocks.LState} {i : Nat}
    {f : LocalBlocks.LFn} (h : st.fns.get? i = some f) :
    LocalBlocks.fnAt st i = f := by
  rw [LocalBlocks.fnAt, List.getD_eq_get?, h]
  rfl

theorem LocalBlocks.processCall_ok (st : LocalBlocks.LState) (callee : Nat)
    (hInv : LocalBlocks.LBInv st) (hc : callee < st.fns.length) :
    LocalBlocks.LBInv (LocalBlocks.processCall st callee).1 ∧
    LocalBlocks.lbMonoS st (LocalBlocks.processCall st callee).1 ∧
    LocalBlocks.targetsLocalClone (LocalBlocks.processCall st callee).1
      (LocalBlocks.processCall st callee).2.1 ∧
    LocalBlocks.itemsWf (LocalBlocks.processCall st callee).1
      (LocalBlocks.processCall st callee).2.2 ∧
    (LocalBlocks.processCall st callee).1.doneBlocks = st.doneBlocks ∧
    (∀ i o, i < (LocalBlocks.processCall st callee).1.fns.length →
      (LocalBlocks.fnAt (LocalBlocks.processCall st callee).1 i).origOf = some o →
      i < st.fns.length ∨
        ∃ it ∈ (LocalBlocks.processCall st callee).2.2, it.1 = i) := by
  cases hcl : st.cache.lookup callee with
  | some l =>
      have heq : LocalBlocks.processCall st callee = (st, l, []) := by
        simp only [LocalBlocks.processCall, hcl]
      rw [heq]
      have hmem := LocalBlocks.lookup_some_mem hcl
      have hshape := hInv.cacheVals _ hmem
      have hkey := hInv.cacheKeys _ hmem
      refine ⟨hInv, LocalBlocks.lbMonoS_refl st, ⟨hkey.2, fun _ => hshape⟩, ?_, rfl, ?_⟩
      · intro it hit
        exact absurd hit (List.not_mem_nil _)
      · intro i o hi _
        exact Or.inl hi
  | none =>
      cases hg : st.fns.get? callee with
      | none =>
          exfalso
          rw [List.get?_eq_getElem?, List.getElem?_eq_none_iff] at hg
          omega
      | some fn =>
          have hfa : LocalBlocks.fnAt st callee = fn := LocalBlocks.fnAt_get? hg
          by_cases he : fn.isExtern = true
          · have heq : LocalBlocks.processCall st callee = (st, callee, []) := by
              simp only [LocalBlocks.processCall, hcl, hg, he, if_true]
            rw [heq]
            refine ⟨hInv, LocalBlocks.lbMonoS_refl st, ⟨hc, ?_⟩, ?_, rfl, ?_⟩
            · intro hne
              rw [hfa] at hne
              rw [he] at hne
              exact absurd hne (by simp)
            · intro it hit
              exact absurd hit (List.not_mem_nil _)
            · intro i o hi _
              exact Or.inl hi
          · -- the clone branch
            set newId := st.fns.length with hnew
            set clone : LocalBlocks.LFn :=
              { name := "_local_" ++ fn.name, isExtern := false, localFn := true
                retTy := if fn.retTy = LocalBlocks.RetTy.wideRef
                         then LocalBlocks.RetTy.narrow else fn.retTy
                body := fn.body, origOf := some callee } with hclone
            set st2 : LocalBlocks.LState :=
              { st with fns := st.fns ++ [clone]
                        cache := (callee, newId) :: (newId, newId) :: st.cache }
              with hst2
            have heq : LocalBlocks.processCall st callee
                = (st2, newId, [(newId, fn.body)]) := by
              simp only [LocalBlocks.processCall, hcl, hg]
              rw [if_neg he]
            rw [heq]
            have hlen : st2.fns.length = st.fns.length + 1 := by
              simp [hst2]
            have hfaOld : ∀ i, i < st.fns.length →
                LocalBlocks.fnAt st2 i = LocalBlocks.fnAt st i := by
              intro i hi
              show (st.fns ++ [clone]).getD i LocalBlocks.dfltLFn = _
              exact LocalBlocks.getD_append_lt st.fns clone LocalBlocks.dfltLFn i hi
            have hfaNew : LocalBlocks.fnAt st2 newId = clone := by
              show (st.fns ++ [clone]).getD st.fns.length LocalBlocks.dfltLFn = clone
              exact LocalBlocks.getD_append_len st.fns clone LocalBlocks.dfltLFn
            have hmono : LocalBlocks.lbMonoS st st2 := by
              refine ⟨by rw [hlen]; exact Nat.le_succ _, hfaOld, ?_⟩
              intro p hp
              exact List.mem_cons_of_mem _ (List.mem_cons_of_mem _ hp)
            have hshapeNew : LocalBlocks.cloneShape st2 newId := by
              rw [LocalBlocks.cloneShape, hfaNew]
              refine ⟨rfl, rfl, callee, rfl, ?_, ?_, ?_⟩
              · rw [hlen]
                exact Nat.lt_succ_of_lt hc
              · rw [hfaOld callee hc, hfa]
              · rw [hfaOld callee hc, hfa]
                rfl
            have hcalleeNe : ¬callee = newId := by
              omega
            have hInv2 : LocalBlocks.LBInv st2 := by
              refine ⟨?_, ?_, ?_, ?_, ?_, ?_⟩
              · intro p hp
                rcases List.mem_cons.mp hp with rfl | hp2
                · constructor
                  · rw [hlen]; exact Nat.lt_succ_of_lt hc
                  · rw [hlen]; exact Nat.lt_succ_self _
                rcases List.mem_cons.mp hp2 with rfl | hp3
                · constructor
                  · rw [hlen]; exact Nat.lt_succ_self _
                  · rw [hlen]; exact Nat.lt_succ_self _
                · have := hInv.cacheKeys p hp3
                  rw [hlen]
                  exact ⟨Nat.lt_succ_of_lt this.1, Nat.lt_succ_of_lt this.2⟩
              · intro p hp
                rcases List.mem_cons.mp hp with rfl | hp2
                · exact hshapeNew
                rcases List.mem_cons.mp hp2 with rfl | hp3
                · exact hshapeNew
                · exact LocalBlocks.cloneShape_monoS hmono
                    (hInv.cacheKeys p hp3).2 (hInv.cacheVals p hp3)
              · show (callee :: newId :: st.cache.map Prod.fst).Nodup
                refine List.nodup_cons.mpr ⟨?_, List.nodup_cons.mpr ⟨?_, hInv.keysNodup⟩⟩
                · intro hmem
                  rcases List.mem_cons.mp hmem with h1 | h1
                  · exact hcalleeNe h1
                  · exact LocalBlocks.lookup_none_keys hcl h1
                · intro hmem
                  rcases List.mem_map.mp hmem with ⟨p, hp, hp2⟩
                  have := (hInv.cacheKeys p hp).1
                  omega
              · intro i o hi hio
                rw [hlen] at hi
                rcases Nat.lt_succ_iff_lt_or_eq.mp hi with hi2 | hi2
                · rw [hfaOld i hi2] at hio
                  obtain ⟨hsh, hca⟩ := hInv.cloneTagged i o hi2 hio
                  exact ⟨LocalBlocks.cloneShape_monoS hmono hi2 hsh,
                    List.mem_cons_of_mem _ (List.mem_cons_of_mem _ hca)⟩
                · subst hi2
                  rw [hfaNew] at hio
                  have ho : o = callee := by
                    have := Option.some.inj hio
                    exact this.symm
                  subst ho
                  exact ⟨hshapeNew, List.mem_cons_self _ _⟩
              · intro i hi c hcb
                rw [hlen] at hi ⊢
                rcases Nat.lt_succ_iff_lt_or_eq.mp hi with hi2 | hi2
                · rw [hfaOld i hi2] at hcb
                  exact Nat.lt_succ_of_lt (hInv.bodiesWf i hi2 c hcb)
                · subst hi2
                  rw [hfaNew] at hcb
                  have : c ∈ (LocalBlocks.fnAt st callee).body := by
                    rw [hfa]
                    exact hcb
                  exact Nat.lt_succ_of_lt (hInv.bodiesWf callee hc c this)
              · intro blk hblk c hcb
                exact LocalBlocks.targetsLocal_monoS hmono
                  (hInv.doneOk blk hblk c hcb)
            refine ⟨hInv2, hmono, ?_, ?_, rfl, ?_⟩
            · refine ⟨by rw [hlen]; exact Nat.lt_succ_self _, fun _ => hshapeNew⟩
            · intro it hit
              rcases List.mem_cons.mp hit with rfl | hit2
              · constructor
                · rw [hlen]; exact Nat.lt_succ_self _
                · intro c hcb
                  have : c ∈ (LocalBlocks.fnAt st callee).body := by
                    rw [hfa]; exact hcb
                  rw [hlen]
                  exact Nat.lt_succ_of_lt (hInv.bodiesWf callee hc c this)
              · exact absurd hit2 (List.not_mem_nil _)
            · intro i o hi hio
              rw [hlen] at hi
              rcases Nat.lt_succ_iff_lt_or_eq.mp hi with hi2 | hi2
              · exact Or.inl hi2
              · subst hi2
                exact Or.inr ⟨(newId, fn.body), List.mem_cons_self _ _, rfl⟩

theorem LocalBlocks.processBlock_ok :
    ∀ (calls : List Nat) (st : LocalBlocks.LState),
      LocalBlocks.LBInv st → (∀ c ∈ calls, c < st.fns.length) →
      LocalBlocks.LBInv (LocalBlocks.processBlock st calls).1 ∧
      LocalBlocks.lbMonoS st (LocalBlocks.processBlock st calls).1 ∧
      (∀ c ∈ (LocalBlocks.processBlock st calls).2.1,
        LocalBlocks.targetsLocalClone (LocalBlocks.processBlock st calls).1 c) ∧
      LocalBlocks.itemsWf (LocalBlocks.processBlock st calls).1
        (LocalBlocks.processBlock st calls).2.2 ∧
      (LocalBlocks.processBlock st calls).1.doneBlocks = st.doneBlocks ∧
      (∀ i o, i < (LocalBlocks.processBlock st calls).1.fns.length →
        (LocalBlocks.fnAt (LocalBlocks.processBlock st calls).1 i).origOf
          = some o →
        i < st.fns.length ∨
          ∃ it ∈ (LocalBlocks.processBlock st calls).2.2, it.1 = i) := by
  intro calls
  induction calls with
  | nil =>
      intro st hInv hwf
      refine ⟨hInv, LocalBlocks.lbMonoS_refl st, ?_, ?_, rfl, ?_⟩
      · intro c hc
        exact absurd hc (List.not_mem_nil _)
      · intro it hit
        exact absurd hit (List.not_mem_nil _)
      · intro i o hi _
        exact Or.inl hi
  | cons c cs ih =>
      intro st hInv hwf
      obtain ⟨pInv, pMono, pTgt, pItems, pDone, pNew⟩ :=
        LocalBlocks.processCall_ok st c hInv (hwf c (List.mem_cons_self c cs))
      obtain ⟨qInv, qMono, qTgt, qItems, qDone, qNew⟩ :=
        ih (LocalBlocks.processCall st c).1 pInv
          (fun c2 hc2 => Nat.lt_of_lt_of_le
            (hwf c2 (List.mem_cons_of_mem c hc2)) pMono.1)
      have heq : LocalBlocks.processBlock st (c :: cs)
          = ((LocalBlocks.processBlock (LocalBlocks.processCall st c).1 cs).1,
             (LocalBlocks.processCall st c).2.1
               :: (LocalBlocks.processBlock (LocalBlocks.processCall st c).1 cs).2.1,
             (LocalBlocks.processCall st c).2.2
               ++ (LocalBlocks.processBlock (LocalBlocks.processCall st c).1 cs).2.2) := by
        simp only [LocalBlocks.processBlock]
      rw [heq]
      refine ⟨qInv, LocalBlocks.lbMonoS_trans pMono qMono, ?_, ?_,
        qDone.trans pDone, ?_⟩
      · intro c2 hc2
        rcases List.mem_cons.mp hc2 with rfl | hc3
        · exact LocalBlocks.targetsLocal_monoS qMono pTgt
        · exact qTgt c2 hc3
      · intro it hit
        rcases List.mem_append.mp hit with h1 | h1
        · obtain ⟨ho, hcs⟩ := pItems it h1
          exact ⟨Nat.lt_of_lt_of_le ho qMono.1,
            fun c2 hc2 => Nat.lt_of_lt_of_le (hcs c2 hc2) qMono.1⟩
        · exact qItems it h1
      · intro i o hi hio
        rcases qNew i o hi hio with h1 | h1
        · have hio2 : (LocalBlocks.fnAt (LocalBlocks.processCall st c).1 i).origOf
              = some o := by
            rw [← qMono.2.1 i h1]
            exact hio
          rcases pNew i o h1 hio2 with h2 | h2
          · exact Or.inl h2
          · obtain ⟨it, hit, hiteq⟩ := h2
            exact Or.inr ⟨it, List.mem_append_left _ hit, hiteq⟩
        · obtain ⟨it, hit, hiteq⟩ := h1
          exact Or.inr ⟨it, List.mem_append_right _ hit, hiteq⟩

theorem LocalBlocks.setBody_fields (fns : List LocalBlocks.LFn) (j : Nat)
    (b : List Nat) (i : Nat) (d : LocalBlocks.LFn) :
    ((LocalBlocks.setBody fns j b).getD i d).name = (fns.getD i d).name ∧
    ((LocalBlocks.setBody fns j b).getD i d).isExtern = (fns.getD i d).isExtern ∧
    ((LocalBlocks.setBody fns j b).getD i d).localFn = (fns.getD i d).localFn ∧
    ((LocalBlocks.setBody fns j b).getD i d).retTy = (fns.getD i d).retTy ∧
    ((LocalBlocks.setBody fns j b).getD i d).origOf = (fns.getD i d).origOf := by
  by_cases hij : i = j
  · subst hij
    by_cases hlt : i < fns.length
    · rw [LocalBlocks.setBody_getD_self fns i b d hlt]
      exact ⟨rfl, rfl, rfl, rfl, rfl⟩
    · unfold LocalBlocks.setBody
      cases hg : fns.get? i with
      | none => exact ⟨rfl, rfl, rfl, rfl, rfl⟩
      | some f =>
          exfalso
          rw [List.get?_eq_getElem?] at hg
          obtain ⟨hlt2, _⟩ := List.getElem?_eq_some_iff.mp hg
          exact hlt hlt2
  · rw [LocalBlocks.setBody_getD_ne fns j b i d hij]
    exact ⟨rfl, rfl, rfl, rfl, rfl⟩

theorem LocalBlocks.cloneShape_fields {stA stB : LocalBlocks.LState} {i : Nat}
    (hlen : stB.fns.length = stA.fns.length)
    (hf : ∀ k, (LocalBlocks.fnAt stB k).name = (LocalBlocks.fnAt stA k).name ∧
      (LocalBlocks.fnAt stB k).isExtern = (LocalBlocks.fnAt stA k).isExtern ∧
      (LocalBlocks.fnAt stB k).localFn = (LocalBlocks.fnAt stA k).localFn ∧
      (LocalBlocks.fnAt stB k).retTy = (LocalBlocks.fnAt stA k).retTy ∧
      (LocalBlocks.fnAt stB k).origOf = (LocalBlocks.fnAt stA k).origOf)
    (hs : LocalBlocks.cloneShape stA i) : LocalBlocks.cloneShape stB i := by
  obtain ⟨h1, h2, o, h3, h4, h5, h6⟩ := hs
  refine ⟨((hf i).2.2.1).trans h1, ((hf i).2.1).trans h2, o,
    ((hf i).2.2.2.2).trans h3, by rw [hlen]; exact h4, ?_, ?_⟩
  · rw [(hf i).1, (hf o).1]
    exact h5
  · rw [(hf i).2.2.2.1, (hf o).2.2.2.1]
    exact h6

theorem LocalBlocks.targetsLocal_fields {stA stB : LocalBlocks.LState} {c : Nat}
    (hlen : stB.fns.length = stA.fns.length)
    (hf : ∀ k, (LocalBlocks.fnAt stB k).name = (LocalBlocks.fnAt stA k).name ∧
      (LocalBlocks.fnAt stB k).isExtern = (LocalBlocks.fnAt stA k).isExtern ∧
      (LocalBlocks.fnAt stB k).localFn = (LocalBlocks.fnAt stA k).localFn ∧
      (LocalBlocks.fnAt stB k).retTy = (LocalBlocks.fnAt stA k).retTy ∧
      (LocalBlocks.fnAt stB k).origOf = (LocalBlocks.fnAt stA k).origOf)
    (ht : LocalBlocks.targetsLocalClone stA c) :
    LocalBlocks.targetsLocalClone stB c := by
  obtain ⟨hlt, himp⟩ := ht
  refine ⟨by rw [hlen]; exact hlt, ?_⟩
  intro hne
  rw [(hf c).2.1] at hne
  exact LocalBlocks.cloneShape_fields hlen hf (himp hne)

theorem LocalBlocks.handleLocalBlocksLoop_ok :
    ∀ (fuel : Nat) (st : LocalBlocks.LState)
      (queue : List (Option Nat × List Nat)) (st' : LocalBlocks.LState),
      LocalBlocks.handleLocalBlocksLoop fuel st queue = some st' →
      LocalBlocks.LBInv st → LocalBlocks.queueWf st queue →
      LocalBlocks.clonesRedirected st queue →
      LocalBlocks.LBInv st' ∧
      (∀ i o, i < st'.fns.length →
        (LocalBlocks.fnAt st' i).origOf = some o →
        ∀ c ∈ (LocalBlocks.fnAt st' i).body,
          LocalBlocks.targetsLocalClone st' c) := by
  intro fuel
  induction fuel with
  | zero =>
      intro st queue st' h hInv hqw hcr
      cases queue with
      | nil =>
          obtain rfl := Option.some.inj h
          refine ⟨hInv, ?_⟩
          intro i o hi hio c hc
          rcases hcr i o hi hio with ⟨item, hitem, _⟩ | h2
          · exact absurd hitem (List.not_mem_nil _)
          · exact h2 c hc
      | cons a q =>
          exact Option.noConfusion h
  | succ fuel ih =>
      intro st queue st' h hInv hqw hcr
      cases queue with
      | nil =>
          obtain rfl := Option.some.inj h
          refine ⟨hInv, ?_⟩
          intro i o hi hio c hc
          rcases hcr i o hi hio with ⟨item, hitem, _⟩ | h2
          · exact absurd hitem (List.not_mem_nil _)
          · exact h2 c hc
      | cons item rest =>
          obtain ⟨owner, calls⟩ := item
          have hcalls : ∀ c ∈ calls, c < st.fns.length :=
            (hqw (owner, calls) (List.mem_cons_self _ _)).1
          obtain ⟨pInv, pMono, pTgt, pItems, pDone, pNew⟩ :=
            LocalBlocks.processBlock_ok calls st hInv hcalls
          unfold LocalBlocks.handleLocalBlocksLoop at h
          cases owner with
          | none =>
              set r := LocalBlocks.processBlock st calls with hr
              set st2 : LocalBlocks.LState :=
                { r.1 with doneBlocks := r.1.doneBlocks ++ [r.2.1] } with hst2
              have h2 : LocalBlocks.handleLocalBlocksLoop fuel st2
                  (rest ++ r.2.2.map (fun it => (some it.1, it.2))) = some st' := h
              have hInv2 : LocalBlocks.LBInv st2 := by
                refine ⟨pInv.cacheKeys, pInv.cacheVals, pInv.keysNodup,
                  pInv.cloneTagged, pInv.bodiesWf, ?_⟩
                intro blk hblk c hc
                rcases List.mem_append.mp hblk with h3 | h3
                · exact pInv.doneOk blk h3 c hc
                · have : blk = r.2.1 := by simpa using h3
                  subst this
                  exact pTgt c hc
              have hqw2 : LocalBlocks.queueWf st2
                  (rest ++ r.2.2.map (fun it => (some it.1, it.2))) := by
                intro it hit
                rcases List.mem_append.mp hit with h3 | h3
                · obtain ⟨hcs, how⟩ := hqw it (List.mem_cons_of_mem _ h3)
                  exact ⟨fun c hc => Nat.lt_of_lt_of_le (hcs c hc) pMono.1,
                    fun i hi => Nat.lt_of_lt_of_le (how i hi) pMono.1⟩
                · obtain ⟨it0, hit0, rfl⟩ := List.mem_map.mp h3
                  obtain ⟨ho, hcs⟩ := pItems it0 hit0
                  refine ⟨fun c hc => hcs c hc, ?_⟩
                  intro i hi
                  obtain rfl := Option.some.inj hi
                  exact ho
              have hcr2 : LocalBlocks.clonesRedirected st2
                  (rest ++ r.2.2.map (fun it => (some it.1, it.2))) := by
                intro i o hi hio
                rcases pNew i o hi hio with h3 | h3
                · have hio0 : (LocalBlocks.fnAt st i).origOf = some o := by
                    rw [← pMono.2.1 i h3]
                    exact hio
                  rcases hcr i o h3 hio0 with ⟨it, hit, hite⟩ | h4
                  · rcases List.mem_cons.mp hit with rfl | hit2
                    · exact absurd hite (by simp)
                    · exact Or.inl ⟨it, List.mem_append_left _ hit2, hite⟩
                  · right
                    intro c hc
                    have hbe : LocalBlocks.fnAt st2 i = LocalBlocks.fnAt st i :=
                      pMono.2.1 i h3
                    rw [hbe] at hc
                    exact LocalBlocks.targetsLocal_monoS pMono (h4 c hc)
                · obtain ⟨it, hit, hite⟩ := h3
                  exact Or.inl ⟨(some it.1, it.2),
                    List.mem_append_right _ (List.mem_map.mpr ⟨it, hit, rfl⟩),
                    by rw [hite]⟩
              exact ih st2 _ st' h2 hInv2 hqw2 hcr2
          | some j =>
              have hj : j < st.fns.length :=
                (hqw (some j, calls) (List.mem_cons_self _ _)).2 j rfl
              set r := LocalBlocks.processBlock st calls with hr
              have hjr : j < r.1.fns.length := Nat.lt_of_lt_of_le hj pMono.1
              set st2 : LocalBlocks.LState :=
                { r.1 with doneBlocks := r.1.doneBlocks ++ [r.2.1]
                           fns := LocalBlocks.setBody r.1.fns j r.2.1 } with hst2
              have h2 : LocalBlocks.handleLocalBlocksLoop fuel st2
                  (rest ++ r.2.2.map (fun it => (some it.1, it.2))) = some st' := h
              have hlen2 : st2.fns.length = r.1.fns.length :=
                LocalBlocks.setBody_length r.1.fns j r.2.1
              have hf : ∀ k, (LocalBlocks.fnAt st2 k).name
                    = (LocalBlocks.fnAt r.1 k).name ∧
                  (LocalBlocks.fnAt st2 k).isExtern
                    = (LocalBlocks.fnAt r.1 k).isExtern ∧
                  (LocalBlocks.fnAt st2 k).localFn
                    = (LocalBlocks.fnAt r.1 k).localFn ∧
                  (LocalBlocks.fnAt st2 k).retTy
                    = (LocalBlocks.fnAt r.1 k).retTy ∧
                  (LocalBlocks.fnAt st2 k).origOf
                    = (LocalBlocks.fnAt r.1 k).origOf := by
                intro k
                exact LocalBlocks.setBody_fields r.1.fns j r.2.1 k LocalBlocks.dfltLFn
              have hbj : (LocalBlocks.fnAt st2 j).body = r.2.1 := by
                show ((LocalBlocks.setBody r.1.fns j r.2.1).getD j
                  LocalBlocks.dfltLFn).body = r.2.1
                rw [LocalBlocks.setBody_getD_self r.1.fns j r.2.1
                  LocalBlocks.dfltLFn hjr]
              have hbne : ∀ i, ¬i = j →
                  (LocalBlocks.fnAt st2 i).body
                    = (LocalBlocks.fnAt r.1 i).body := by
                intro i hij
                show ((LocalBlocks.setBody r.1.fns j r.2.1).getD i
                  LocalBlocks.dfltLFn).body = _
                rw [LocalBlocks.setBody_getD_ne r.1.fns j r.2.1 i
                  LocalBlocks.dfltLFn hij]
                rfl
              have hInv2 : LocalBlocks.LBInv st2 := by
                refine ⟨?_, ?_, pInv.keysNodup, ?_, ?_, ?_⟩
                · intro p hp
                  rw [hlen2]
                  exact pInv.cacheKeys p hp
                · intro p hp
                  exact LocalBlocks.cloneShape_fields hlen2 hf (pInv.cacheVals p hp)
                · intro i o hi hio
                  rw [hlen2] at hi
                  rw [(hf i).2.2.2.2] at hio
                  obtain ⟨hsh, hca⟩ := pInv.cloneTagged i o hi hio
                  exact ⟨LocalBlocks.cloneShape_fields hlen2 hf hsh, hca⟩
                · intro i hi c hc
                  rw [hlen2] at hi ⊢
                  by_cases hij : i = j
                  · subst hij
                    rw [hbj] at hc
                    exact (pTgt c hc).1
                  · rw [hbne i hij] at hc
                    exact pInv.bodiesWf i hi c hc
                · intro blk hblk c hc
                  rcases List.mem_append.mp hblk with h3 | h3
                  · exact LocalBlocks.targetsLocal_fields hlen2 hf
                      (pInv.doneOk blk h3 c hc)
                  · have : blk = r.2.1 := by simpa using h3
                    subst this
                    exact LocalBlocks.targetsLocal_fields hlen2 hf (pTgt c hc)
              have hqw2 : LocalBlocks.queueWf st2
                  (rest ++ r.2.2.map (fun it => (some it.1, it.2))) := by
                intro it hit
                rcases List.mem_append.mp hit with h3 | h3
                · obtain ⟨hcs, how⟩ := hqw it (List.mem_cons_of_mem _ h3)
                  rw [hlen2]
                  exact ⟨fun c hc => Nat.lt_of_lt_of_le (hcs c hc) pMono.1,
                    fun i hi => Nat.lt_of_lt_of_le (how i hi) pMono.1⟩
                · obtain ⟨it0, hit0, rfl⟩ := List.mem_map.mp h3
                  obtain ⟨ho, hcs⟩ := pItems it0 hit0
                  rw [hlen2]
                  refine ⟨fun c hc => hcs c hc, ?_⟩
                  intro i hi
                  obtain rfl := Option.some.inj hi
                  exact ho
              have hcr2 : LocalBlocks.clonesRedirected st2
                  (rest ++ r.2.2.map (fun it => (some it.1, it.2))) := by
                intro i o hi hio
                rw [hlen2] at hi
                rw [(hf i).2.2.2.2] at hio
                by_cases hij : i = j
                · subst hij
                  right
                  intro c hc
                  rw [hbj] at hc
                  exact LocalBlocks.targetsLocal_fields hlen2 hf (pTgt c hc)
                · rcases pNew i o hi hio with h3 | h3
                  · have hio0 : (LocalBlocks.fnAt st i).origOf = some o := by
                      rw [← pMono.2.1 i h3]
                      exact hio
                    rcases hcr i o h3 hio0 with ⟨it, hit, hite⟩ | h4
                    · rcases List.mem_cons.mp hit with rfl | hit2
                      · exfalso
                        have : j = i := Option.some.inj hite
                        exact hij this.symm
                      · exact Or.inl ⟨it, List.mem_append_left _ hit2, hite⟩
                    · right
                      intro c hc
                      rw [hbne i hij] at hc
                      rw [pMono.2.1 i h3] at hc
                      exact LocalBlocks.targetsLocal_fields hlen2 hf
                        (LocalBlocks.targetsLocal_monoS pMono (h4 c hc))
                  · obtain ⟨it, hit, hite⟩ := h3
                    exact Or.inl ⟨(some it.1, it.2),
                      List.mem_append_right _ (List.mem_map.mpr ⟨it, hit, rfl⟩),
                      by rw [hite]⟩
              exact ih st2 _ st' h2 hInv2 hqw2 hcr2

theorem LocalBlocks.getD_mem {l : List LocalBlocks.LFn} {i : Nat}
    (d : LocalBlocks.LFn) (h : i < l.length) : l.getD i d ∈ l := by
  rw [List.getD_eq_get?, List.get?_eq_getElem?, List.getElem?_eq_getElem h]
  exact List.getElem_mem h

/-- C5: after a terminating run of the local-block specializer, (1) every
call recorded in a localized block (the explicit local blocks and,
transitively, the bodies of the clones they reach) whose callee is not
extern targets a function carrying `FLAG_LOCAL_FN`, named
`_local_<original>`; (2) the same holds inside every clone's (rewritten)
body; (3) each function is cloned at most once across all local blocks
(the cache prevents duplicates, including for recursion); and (4) every
clone carries `FLAG_LOCAL_FN`, the `_local_` name, and its declared return
type is the original's with a wide-reference (`FLAG_WIDE`) return narrowed
by the local temp inserted on its return expression. -/
theorem claim_C5_local_blocks (fuel : Nat) (fns0 : List LocalBlocks.LFn)
    (localBlocks : List (List Nat)) (st' : LocalBlocks.LState)
    (h : LocalBlocks.handleLocalBlocks fuel fns0 localBlocks = some st')
    (horig : ∀ f ∈ fns0, f.origOf = none)
    (hbody : ∀ f ∈ fns0, ∀ c ∈ f.body, c < fns0.length)
    (hblocks : ∀ b ∈ localBlocks, ∀ c ∈ b, c < fns0.length) :
    (∀ blk ∈ st'.doneBlocks, ∀ c ∈ blk, LocalBlocks.targetsLocalClone st' c) ∧
    (∀ i o, i < st'.fns.length → (LocalBlocks.fnAt st' i).origOf = some o →
      ∀ c ∈ (LocalBlocks.fnAt st' i).body,
        LocalBlocks.targetsLocalClone st' c) ∧
    (∀ i j o, i < st'.fns.length → j < st'.fns.length →
      (LocalBlocks.fnAt st' i).origOf = some o →
      (LocalBlocks.fnAt st' j).origOf = some o → i = j) ∧
    (∀ i o, i < st'.fns.length → (LocalBlocks.fnAt st' i).origOf = some o →
      (LocalBlocks.fnAt st' i).localFn = true ∧
      (LocalBlocks.fnAt st' i).name
        = "_local_" ++ (LocalBlocks.fnAt st' o).name ∧
      (LocalBlocks.fnAt st' i).retTy
        = LocalBlocks.cloneRetTy (LocalBlocks.fnAt st' o).retTy) := by
  have hInv0 : LocalBlocks.LBInv
      { fns := fns0, cache := [], doneBlocks := [] } := by
    refine ⟨?_, ?_, List.nodup_nil, ?_, ?_, ?_⟩
    · intro p hp
      exact absurd hp (List.not_mem_nil _)
    · intro p hp
      exact absurd hp (List.not_mem_nil _)
    · intro i o hi hio
      exfalso
      have hmem : LocalBlocks.fnAt
          { fns := fns0, cache := [], doneBlocks := [] } i ∈ fns0 :=
        LocalBlocks.getD_mem LocalBlocks.dfltLFn hi
      rw [horig _ hmem] at hio
      exact Option.noConfusion hio
    · intro i hi c hc
      have hmem : LocalBlocks.fnAt
          { fns := fns0, cache := [], doneBlocks := [] } i ∈ fns0 :=
        LocalBlocks.getD_mem LocalBlocks.dfltLFn hi
      exact hbody _ hmem c hc
    · intro blk hblk
      exact absurd hblk (List.not_mem_nil _)
  have hqw0 : LocalBlocks.queueWf { fns := fns0, cache := [], doneBlocks := [] }
      (localBlocks.map (fun b => ((none : Option Nat), b))) := by
    intro it hit
    obtain ⟨b, hb, rfl⟩ := List.mem_map.mp hit
    refine ⟨fun c hc => hblocks b hb c hc, ?_⟩
    intro i hi
    exact Option.noConfusion hi
  have hcr0 : LocalBlocks.clonesRedirected
      { fns := fns0, cache := [], doneBlocks := [] }
      (localBlocks.map (fun b => ((none : Option Nat), b))) := by
    intro i o hi hio
    exfalso
    have hmem : LocalBlocks.fnAt
        { fns := fns0, cache := [], doneBlocks := [] } i ∈ fns0 :=
      LocalBlocks.getD_mem LocalBlocks.dfltLFn hi
    rw [horig _ hmem] at hio
    exact Option.noConfusion hio
  obtain ⟨hInv', hclones⟩ :=
    LocalBlocks.handleLocalBlocksLoop_ok fuel _ _ st' h hInv0 hqw0 hcr0
  refine ⟨hInv'.doneOk, hclones, ?_, ?_⟩
  · intro i j o hi hj hio hjo
    obtain ⟨_, hci⟩ := hInv'.cloneTagged i o hi hio
    obtain ⟨_, hcj⟩ := hInv'.cloneTagged j o hj hjo
    exact LocalBlocks.nodup_keys_unique hInv'.keysNodup hci hcj
  · intro i o hi hio
    obtain ⟨hsh, _⟩ := hInv'.cloneTagged i o hi hio
    obtain ⟨h1, _, o2, h3, _, h5, h6⟩ := hsh
    have ho2 : o2 = o := Option.some.inj (h3.symm.trans hio)
    subst ho2
    exact ⟨h1, h5, h6⟩

/-- C5 (witness). -/
theorem claim_C5_witness :
    ∃ st', LocalBlocks.handleLocalBlocks 10 LocalBlocks.lbExampleFns [[0, 1]]
        = some st' ∧
      ((∀ blk ∈ st'.doneBlocks, ∀ c ∈ blk,
        LocalBlocks.targetsLocalClone st' c) ∧
      (∀ i o, i < st'.fns.length → (LocalBlocks.fnAt st' i).origOf = some o →
        ∀ c ∈ (LocalBlocks.fnAt st' i).body,
          LocalBlocks.targetsLocalClone st' c) ∧
      (∀ i j o, i < st'.fns.length → j < st'.fns.length →
        (LocalBlocks.fnAt st' i).origOf = some o →
        (LocalBlocks.fnAt st' j).origOf = some o → i = j) ∧
      (∀ i o, i < st'.fns.length → (LocalBlocks.fnAt st' i).origOf = some o →
        (LocalBlocks.fnAt st' i).localFn = true ∧
        (LocalBlocks.fnAt st' i).name
          = "_local_" ++ (LocalBlocks.fnAt st' o).name ∧
        (LocalBlocks.fnAt st' i).retTy
          = LocalBlocks.cloneRetTy (LocalBlocks.fnAt st' o).retTy)) :=
  ⟨_, rfl, claim_C5_local_blocks 10 LocalBlocks.lbExampleFns [[0, 1]] _ rfl
    (by decide) (by decide) (by decide)⟩

theorem HeapFree.upchain_eq_def (p : HeapFree.Path) :
    HeapFree.upchain p =
      match p with
      | [] => []
      | a :: t => (a :: t).dropLast :: HeapFree.upchain ((a :: t).dropLast) := by
  cases p with
  | nil => rfl
  | cons a t =>
      show HeapFree.upchainGo (t.length + 1) (a :: t) = _
      have hl : ((a :: t).dropLast).length = t.length := by
        rw [List.length_dropLast, List.length_cons]
        omega
      simp only [HeapFree.upchainGo, HeapFree.upchain, hl]

theorem HeapFree.upchain_concat (q : HeapFree.Path) (x : Nat) :
    HeapFree.upchain (q ++ [x]) = q :: HeapFree.upchain q := by
  rw [HeapFree.upchain_eq_def]
  cases hq : q ++ [x] with
  | nil => exact absurd hq (by simp)
  | cons a t =>
      show (a :: t).dropLast :: HeapFree.upchain (a :: t).dropLast
        = q :: HeapFree.upchain q
      rw [← hq, List.dropLast_concat]

theorem HeapFree.pre_concat_cases {a q : List Nat} {x : Nat}
    (h : a <+: q ++ [x]) : a = q ++ [x] ∨ a <+: q := by
  obtain ⟨t, ht⟩ := h
  cases t using List.reverseRecOn with
  | nil =>
      left
      simpa using ht
  | append_singleton t2 y =>
      right
      rw [← List.append_assoc] at ht
      obtain ⟨h1, _⟩ := List.append_inj' ht (by simp)
      exact ⟨t2, h1⟩

theorem HeapFree.pre_of_pre_concat {a q : List Nat} {x : Nat}
    (h : a <+: q ++ [x]) (hlen : a.length ≤ q.length) : a <+: q := by
  rcases HeapFree.pre_concat_cases h with h1 | h1
  · exfalso
    rw [h1] at hlen
    simp at hlen
  · exact h1

theorem HeapFree.pre_of_shared {a b u : List Nat} (h1 : a <+: u)
    (h2 : b <+: u) (hle : a.length ≤ b.length) : a <+: b := by
  have hb : b.take a.length = a := by
    rw [List.prefix_iff_eq_take.mp h2, List.take_take,
      Nat.min_eq_left hle, ← List.prefix_iff_eq_take.mp h1]
  refine ⟨b.drop a.length, ?_⟩
  nth_rewrite 1 [← hb]
  exact List.take_append_drop _ b

theorem HeapFree.mem_upchain (a : HeapFree.Path) (p : HeapFree.Path) :
    a ∈ HeapFree.upchain p ↔ a <+: p ∧ a.length < p.length := by
  induction p using List.reverseRecOn with
  | nil =>
      constructor
      · intro h
        exact absurd h (by rw [HeapFree.upchain_eq_def]; exact List.not_mem_nil a)
      · intro ⟨h1, h2⟩
        simp at h2
  | append_singleton q x ih =>
      rw [HeapFree.upchain_concat]
      constructor
      · intro h
        rcases List.mem_cons.mp h with rfl | h2
        · exact ⟨⟨[x], rfl⟩, by simp⟩
        · obtain ⟨hpre, hlen⟩ := ih.mp h2
          refine ⟨hpre.trans ⟨[x], rfl⟩, ?_⟩
          rw [List.length_append]
          omega
      · intro ⟨hpre, hlen⟩
        rw [List.length_append, List.length_singleton] at hlen
        have hle : a.length ≤ q.length := by omega
        have hq : a <+: q := HeapFree.pre_of_pre_concat hpre hle
        by_cases he : a = q
        · subst he
          exact List.mem_cons_self _ _
        · have hlt : a.length < q.length := by
            rcases Nat.lt_or_ge a.length q.length with h1 | h1
            · exact h1
            · exact absurd (hq.eq_of_length (Nat.le_antisymm hle h1)) he
          exact List.mem_cons_of_mem _ (ih.mpr ⟨hq, hlt⟩)

theorem HeapFree.contains_upchain {a p : HeapFree.Path} :
    (HeapFree.upchain p).contains a = true ↔
      a <+: p ∧ a.length < p.length := by
  rw [List.contains, List.elem_iff]
  exact HeapFree.mem_upchain a p

theorem HeapFree.find?_upchain_strict {q : HeapFree.Path → Bool}
    {p A : HeapFree.Path} (h : (HeapFree.upchain p).find? q = some A) :
    q A = true ∧ A <+: p ∧ A.length < p.length := by
  have h1 := List.find?_some h
  have h2 := (HeapFree.mem_upchain A p).mp (List.mem_of_find?_eq_some h)
  exact ⟨h1, h2.1, h2.2⟩

theorem HeapFree.find?_upchain_longest (q : HeapFree.Path → Bool) :
    ∀ (p A : HeapFree.Path), (HeapFree.upchain p).find? q = some A →
      ∀ b, q b = true → b <+: p → b.length < p.length → b <+: A := by
  intro p
  induction p using List.reverseRecOn with
  | nil =>
      intro A h
      rw [HeapFree.upchain_eq_def] at h
      exact Option.noConfusion h
  | append_singleton q0 x ih =>
      intro A h b hb hpre hlen
      rw [HeapFree.upchain_concat] at h
      rw [List.length_append, List.length_singleton] at hlen
      have hble : b <+: q0 := HeapFree.pre_of_pre_concat hpre (by omega)
      by_cases hq0 : q q0 = true
      · rw [List.find?_cons_of_pos _ hq0] at h
        obtain rfl := Option.some.inj h
        exact hble
      · rw [List.find?_cons_of_neg _ (by simpa using hq0)] at h
        have hbne : ¬b = q0 := fun he => hq0 (he ▸ hb)
        have hblen : b.length < q0.length := by
          rcases Nat.lt_or_ge b.length q0.length with h1 | h1
          · exact h1
          · exact absurd (hble.eq_of_length
              (Nat.le_antisymm hble.length_le h1)) hbne
        exact ih A h b hb hble hblen

theorem HeapFree.innermostStep_sound (isB : HeapFree.Path → Bool)
    {S : HeapFree.Path → Prop} {N u N2 : HeapFree.Path}
    (h : HeapFree.innermostStep isB N u = some N2)
    (hInv : HeapFree.walkInv isB S N) :
    HeapFree.walkInv isB (fun v => v = u ∨ S v) N2 := by
  obtain ⟨hCont, hMax⟩ := hInv
  unfold HeapFree.innermostStep at h
  by_cases hc1 : (HeapFree.upchain u).contains N = true
  · rw [if_pos hc1] at h
    obtain rfl := Option.some.inj h
    have hNu := HeapFree.contains_upchain.mp hc1
    constructor
    · intro v hv
      rcases hv with rfl | hv
      · exact hNu
      · exact hCont v hv
    · intro b hb hball
      exact hMax b hb (fun v hv => hball v (Or.inr hv))
  · rw [if_neg hc1] at h
    cases hC : (HeapFree.upchain u).find? isB with
    | none =>
        simp only [hC] at h
        exact Option.noConfusion h
    | some C =>
        simp only [hC] at h
        obtain ⟨hCB, hCu, hCulen⟩ := HeapFree.find?_upchain_strict hC
        by_cases hc2 : (C == N || (HeapFree.upchain N).contains C) = true
        · rw [if_pos hc2] at h
          have hN2 : N2 = C := (Option.some.inj h).symm
          subst hN2
          have hCN : N2 <+: N ∧ N2.length ≤ N.length := by
            by_cases hbe : (N2 == N) = true
            · have he : N2 = N := beq_iff_eq.mp hbe
              subst he
              exact ⟨List.prefix_rfl, Nat.le_refl _⟩
            · have hbf : (N2 == N) = false := Bool.eq_false_iff.mpr hbe
              rw [hbf, Bool.false_or] at hc2
              have h2 := HeapFree.contains_upchain.mp hc2
              exact ⟨h2.1, Nat.le_of_lt h2.2⟩
          constructor
          · intro v hv
            rcases hv with rfl | hv
            · exact ⟨hCu, hCulen⟩
            · have hNv := hCont v hv
              exact ⟨hCN.1.trans hNv.1, Nat.lt_of_le_of_lt hCN.2 hNv.2⟩
          · intro b hb hball
            have hbu := hball u (Or.inl rfl)
            exact HeapFree.find?_upchain_longest isB u N2 hC b hb hbu.1 hbu.2
        · rw [if_neg hc2] at h
          obtain ⟨hpredA, hAN, hANlen⟩ := HeapFree.find?_upchain_strict h
          have hAC := HeapFree.contains_upchain.mp hpredA
          constructor
          · intro v hv
            rcases hv with rfl | hv
            · exact ⟨hAC.1.trans hCu, Nat.lt_trans hAC.2 hCulen⟩
            · have hNv := hCont v hv
              exact ⟨hAN.trans hNv.1, Nat.lt_trans hANlen hNv.2⟩
          · intro b hb hball
            have hbu := hball u (Or.inl rfl)
            have hbN : b <+: N := hMax b hb (fun v hv => hball v (Or.inr hv))
            have hbneN : ¬b = N := by
              intro he
              subst he
              exact hc1 (HeapFree.contains_upchain.mpr ⟨hbu.1, hbu.2⟩)
            have hbNlen : b.length < N.length := by
              rcases Nat.lt_or_ge b.length N.length with h1 | h1
              · exact h1
              · exact absurd (hbN.eq_of_length
                  (Nat.le_antisymm hbN.length_le h1)) hbneN
            have hbC : b <+: C :=
              HeapFree.find?_upchain_longest isB u C hC b hb hbu.1 hbu.2
            have hbneC : ¬b = C := by
              intro he
              subst he
              apply hc2
              have hct : (HeapFree.upchain N).contains b = true :=
                HeapFree.contains_upchain.mpr ⟨hbN, hbNlen⟩
              rw [hct, Bool.or_true]
            have hbClen : b.length < C.length := by
              rcases Nat.lt_or_ge b.length C.length with h1 | h1
              · exact h1
              · exact absurd (hbC.eq_of_length
                  (Nat.le_antisymm hbC.length_le h1)) hbneC
            exact HeapFree.find?_upchain_longest _ N N2 h b
              (HeapFree.contains_upchain.mpr ⟨hbC, hbClen⟩) hbN hbNlen

theorem HeapFree.walk_fold_sound (isB : HeapFree.Path → Bool) :
    ∀ (t : List HeapFree.Path) (S : HeapFree.Path → Prop)
      (N0 N : HeapFree.Path),
      List.foldlM (fun n u => HeapFree.innermostStep isB n u) N0 t = some N →
      HeapFree.walkInv isB S N0 →
      HeapFree.walkInv isB (fun v => v ∈ t ∨ S v) N := by
  intro t
  induction t with
  | nil =>
      intro S N0 N h hInv
      obtain rfl := Option.some.inj h
      constructor
      · intro v hv
        rcases hv with hv | hv
        · exact absurd hv (List.not_mem_nil v)
        · exact hInv.1 v hv
      · intro b hb hball
        exact hInv.2 b hb (fun v hv => hball v (Or.inr hv))
  | cons u t2 ih =>
      intro S N0 N h hInv
      rw [List.foldlM_cons] at h
      cases hstep : HeapFree.innermostStep isB N0 u with
      | none =>
          rw [hstep] at h
          exact Option.noConfusion h
      | some N1 =>
          rw [hstep] at h
          have h1 := HeapFree.innermostStep_sound isB hstep hInv
          have h2 := ih (fun v => v = u ∨ S v) N1 N h h1
          constructor
          · intro v hv
            apply h2.1 v
            rcases hv with hv | hv
            · rcases List.mem_cons.mp hv with rfl | hv2
              · exact Or.inr (Or.inl rfl)
              · exact Or.inl hv2
            · exact Or.inr (Or.inr hv)
          · intro b hb hball
            apply h2.2 b hb
            intro v hv
            apply hball v
            rcases hv with hv | hv | hv
            · exact Or.inl (List.mem_cons_of_mem u hv)
            · exact Or.inl (by rw [hv]; exact List.mem_cons_self u t2)
            · exact Or.inr hv

theorem HeapFree.innermostBlockWalk_sound (isB : HeapFree.Path → Bool)
    (us : List HeapFree.Path) (N : HeapFree.Path)
    (h : HeapFree.innermostBlockWalk isB us = some N) :
    (∀ v ∈ us, HeapFree.properAnc N v) ∧
    (∀ b, isB b = true → (∀ v ∈ us, HeapFree.properAnc b v) → b <+: N) := by
  cases us with
  | nil =>
      unfold HeapFree.innermostBlockWalk at h
      exact Option.noConfusion h
  | cons u rest =>
      unfold HeapFree.innermostBlockWalk at h
      cases hN0 : (HeapFree.upchain u).find? isB with
      | none =>
          simp only [hN0] at h
          exact Option.noConfusion h
      | some N0 =>
          simp only [hN0] at h
          obtain ⟨hN0B, hN0u, hN0ulen⟩ := HeapFree.find?_upchain_strict hN0
          have hbase : HeapFree.walkInv isB (fun v => v = u) N0 := by
            constructor
            · intro v hv
              subst hv
              exact ⟨hN0u, hN0ulen⟩
            · intro b hb hball
              have hbu := hball u rfl
              exact HeapFree.find?_upchain_longest isB u N0 hN0 b hb hbu.1 hbu.2
          have h2 := HeapFree.walk_fold_sound isB rest _ N0 N h hbase
          constructor
          · intro v hv
            apply h2.1 v
            rcases List.mem_cons.mp hv with rfl | hv2
            · exact Or.inr rfl
            · exact Or.inl hv2
          · intro b hb hball
            apply h2.2 b hb
            intro v hv
            apply hball v
            rcases hv with hv | hv
            · exact List.mem_cons_of_mem u hv
            · rw [hv]
              exact List.mem_cons_self u rest

/-- C4 (amended): whenever `freeHeapAllocatedVars` inserts a free for a
heap-promoted variable, the variable has exactly one definition, the
escape worklist cleared it, and the insertion point is the innermost block
containing all of its uses — before the function's return label exactly
when that block is the function body, at the tail of the block otherwise.
(The converse direction of the original claim fails: the walk can abort
even though a block containing all uses exists, see the counterexample.) -/
theorem claim_C4_amended (env : HeapFree.FreeEnv) (fuel v : Nat)
    (loc : HeapFree.FreeLoc)
    (h : HeapFree.freeHeapAllocatedVar env fuel v =
      some (HeapFree.FreeResult.freed loc)) :
    HeapFree.defCount env v = 1 ∧
    HeapFree.escapeScan env env.taskFns fuel [v] = some false ∧
    ∃ B : HeapFree.Path,
      (loc = HeapFree.FreeLoc.beforeReturnLabel ↔ B = []) ∧
      (∀ b, loc = HeapFree.FreeLoc.atTailOf b → B = b) ∧
      HeapFree.innermostBlockContaining (HeapFree.isBlock env)
        ((HeapFree.usesOf env v).map (fun u => u.upath)) B := by
  unfold HeapFree.freeHeapAllocatedVar at h
  by_cases hd : HeapFree.defCount env v = 1
  · rw [if_pos hd] at h
    cases hs : HeapFree.escapeScan env env.taskFns fuel [v] with
    | none =>
        simp only [hs] at h
        exact Option.noConfusion h
    | some esc =>
        cases esc with
        | true =>
            simp only [hs] at h
            exact HeapFree.FreeResult.noConfusion (Option.some.inj h)
        | false =>
            simp only [hs] at h
            refine ⟨hd, rfl, ?_⟩
            cases hp : HeapFree.placeFree (HeapFree.isBlock env)
                ((HeapFree.usesOf env v).map (fun u => u.upath)) with
            | none =>
                simp only [hp] at h
                exact HeapFree.FreeResult.noConfusion (Option.some.inj h)
            | some loc2 =>
                simp only [hp] at h
                obtain rfl : loc2 = loc :=
                  HeapFree.FreeResult.freed.inj (Option.some.inj h)
                unfold HeapFree.placeFree at hp
                cases hw : HeapFree.innermostBlockWalk (HeapFree.isBlock env)
                    ((HeapFree.usesOf env v).map (fun u => u.upath)) with
                | none =>
                    simp only [hw] at hp
                    exact Option.noConfusion hp
                | some n =>
                    simp only [hw] at hp
                    have hsound := HeapFree.innermostBlockWalk_sound
                      (HeapFree.isBlock env)
                      ((HeapFree.usesOf env v).map (fun u => u.upath)) n hw
                    by_cases hn : n = ([] : HeapFree.Path)
                    · rw [if_pos hn] at hp
                      obtain rfl : HeapFree.FreeLoc.beforeReturnLabel = loc2 :=
                        Option.some.inj hp
                      subst hn
                      refine ⟨[], ⟨fun _ => rfl, fun _ => rfl⟩,
                        fun b hb => HeapFree.FreeLoc.noConfusion hb,
                        rfl, hsound.1, hsound.2⟩
                    · rw [if_neg hn] at hp
                      by_cases hb : HeapFree.isBlock env n = true
                      · rw [if_pos hb] at hp
                        obtain rfl : HeapFree.FreeLoc.atTailOf n = loc2 :=
                          Option.some.inj hp
                        refine ⟨n,
                          ⟨fun hh => HeapFree.FreeLoc.noConfusion hh,
                           fun hh => absurd hh hn⟩,
                          fun b hb2 => HeapFree.FreeLoc.atTailOf.inj hb2,
                          hb, hsound.1, hsound.2⟩
                      · rw [if_neg hb] at hp
                        exact Option.noConfusion hp
  · rw [if_neg hd] at h
    exact HeapFree.FreeResult.noConfusion (Option.some.inj h)

/-- C4 counterexample to the original claim: with the single use of
variable `1` split across the two arms of a conditional, the function body
`[]` is a block containing all uses, yet the innermost-block walk lands on
the conditional `[0]` — not a block — and the pass aborts with
`INT_ASSERT(block)` instead of freeing at `[]`. -/
theorem claim_C4_counterexample :
    HeapFree.freeHeapAllocatedVar HeapFree.hfCondEnv 5 1 =
      some HeapFree.FreeResult.abortCompile ∧
    HeapFree.defCount HeapFree.hfCondEnv 1 = 1 ∧
    HeapFree.escapeScan HeapFree.hfCondEnv HeapFree.hfCondEnv.taskFns 5 [1] =
      some false ∧
    HeapFree.innermostBlockContaining (HeapFree.isBlock HeapFree.hfCondEnv)
      ((HeapFree.usesOf HeapFree.hfCondEnv 1).map (fun u => u.upath)) [] := by
  refine ⟨rfl, rfl, rfl, rfl, ?_, ?_⟩
  · intro u hu
    have hm : u = [0, 0, 0] ∨ u = [0, 1, 0] := by
      simpa [HeapFree.hfCondEnv, HeapFree.usesOf] using hu
    rcases hm with rfl | rfl
    · exact ⟨⟨[0, 0, 0], rfl⟩, by decide⟩
    · exact ⟨⟨[0, 1, 0], rfl⟩, by decide⟩
  · intro b2 hb2 hball
    by_cases he : b2 = ([] : HeapFree.Path)
    · subst he
      exact List.prefix_rfl
    · have hne : b2.isEmpty = false := by
        cases b2 with
        | nil => exact absurd rfl he
        | cons a t => rfl
      rw [HeapFree.isBlock, hne, Bool.false_or] at hb2
      have hm : b2 ∈ HeapFree.hfCondEnv.blocks := by
        simpa using hb2
      have hm2 : b2 = [0, 0] ∨ b2 = [0, 1] := by
        simpa [HeapFree.hfCondEnv] using hm
      rcases hm2 with rfl | rfl
      · have hc := hball [0, 1, 0] (by decide)
        have h2 := List.prefix_iff_eq_take.mp hc.1
        exact absurd h2 (by decide)
      · have hc := hball [0, 0, 0] (by decide)
        have h2 := List.prefix_iff_eq_take.mp hc.1
        exact absurd h2 (by decide)

/-- C4 witness: on the one-block example the amended theorem applies with
the free placed before the return label, and the function body is indeed
the innermost block containing the single use. -/
theorem claim_C4_witness :
    HeapFree.defCount HeapFree.hfExampleEnv 1 = 1 ∧
    HeapFree.escapeScan HeapFree.hfExampleEnv HeapFree.hfExampleEnv.taskFns
      3 [1] = some false ∧
    ∃ B : HeapFree.Path,
      (HeapFree.FreeLoc.beforeReturnLabel =
        HeapFree.FreeLoc.beforeReturnLabel ↔ B = []) ∧
      (∀ b, HeapFree.FreeLoc.beforeReturnLabel =
        HeapFree.FreeLoc.atTailOf b → B = b) ∧
      HeapFree.innermostBlockContaining (HeapFree.isBlock HeapFree.hfExampleEnv)
        ((HeapFree.usesOf HeapFree.hfExampleEnv 1).map (fun u => u.upath)) B :=
  claim_C4_amended HeapFree.hfExampleEnv 3 1
    HeapFree.FreeLoc.beforeReturnLabel rfl
